import Mathlib

/-!
Verification of the course-scheduling QUBO/ILP formulation layer.

The definitions below are a shallow embedding of the Python sources
`qubo_qaoa_braket_demo.py` and `scheduling-classical.py` /
`scheduling-classical-mini.py`.  Python floats are modelled by `ℚ`
(the programs only add, subtract, multiply and divide by 2/4/60, so all
arithmetic is exact), Python dicts by insertion-ordered association
lists with update-in-place semantics, and code that can raise an
exception by `Option`-valued functions.
-/

/-- Dictionary of rational coefficients keyed by variable name. -/
abbrev LinMap := List (String × ℚ)

/-- Dictionary of rational coefficients keyed by a variable-name pair. -/
abbrev QuadMap := List ((String × String) × ℚ)

/-- Lookup with default, mirroring Python `d.get(k, default)`. -/
def dget {K : Type} [DecidableEq K] (d : List (K × ℚ)) (k : K) (dflt : ℚ) : ℚ :=
  match d with
  | [] => dflt
  | (k0, v0) :: rest => if k0 = k then v0 else dget rest k dflt

/-- Python `d[k] = d.get(k, 0) + v`: update the entry in place if the key is
present (Python dicts keep unique keys), otherwise append a new entry. -/
def dadd {K : Type} [DecidableEq K] (d : List (K × ℚ)) (k : K) (v : ℚ) : List (K × ℚ) :=
  match d with
  | [] => [(k, v)]
  | (k0, v0) :: rest => if k0 = k then (k0, v0 + v) :: rest else (k0, v0) :: dadd rest k v

/-- Python `d.setdefault(k, v)`. -/
def dsetdefault {K : Type} [DecidableEq K] (d : List (K × ℚ)) (k : K) (v : ℚ) : List (K × ℚ) :=
  match d with
  | [] => [(k, v)]
  | (k0, v0) :: rest => if k0 = k then (k0, v0) :: rest else (k0, v0) :: dsetdefault rest k v

/-- Python `d[k] = v` for string-valued dicts: overwrite in place or append. -/
def dset (d : List (String × String)) (k v : String) : List (String × String) :=
  match d with
  | [] => [(k, v)]
  | (k0, v0) :: rest => if k0 = k then (k0, v) :: rest else (k0, v0) :: dset rest k v

/-- First-match lookup in a string-valued dict (Python dict keys are unique). -/
def dlookup (d : List (String × String)) (k : String) : Option String :=
  match d with
  | [] => none
  | (k0, v0) :: rest => if k0 = k then some v0 else dlookup rest k

/-- Keys of a coefficient dictionary, in insertion order. -/
def dkeys {K V : Type} (d : List (K × V)) : List K := d.map Prod.fst

/-- Python `tuple(sorted((a, b)))` for a two-element tuple of strings. -/
def sortPair (a b : String) : String × String :=
  if b < a then (b, a) else (a, b)

/-- Python `itertools.combinations(l, 2)`: ordered pairs of distinct positions. -/
def combinations2 {α : Type} (l : List α) : List (α × α) :=
  match l with
  | [] => []
  | x :: xs => xs.map (fun y => (x, y)) ++ combinations2 xs

/-- Split a character list at every occurrence of `sep`, mirroring
Python `str.split(sep)` for a one-character separator. -/
def splitOnChar (sep : Char) (cs : List Char) : List (List Char) :=
  match cs with
  | [] => [[]]
  | c :: rest =>
    let r := splitOnChar sep rest
    if c = sep then [] :: r
    else
      match r with
      | [] => [[c]]
      | g :: gs => (c :: g) :: gs

/-- Parse a non-empty all-digit character list as a natural number, the
well-formed case of Python `int(...)` on an `HH`/`MM` field. -/
def digitsToNat? (cs : List Char) : Option Nat :=
  if cs.isEmpty then none
  else if cs.all Char.isDigit then
    some (cs.foldl (fun n c => n * 10 + (c.toNat - 48)) 0)
  else none

/-- One meeting of a course section, with the fields the Python code reads. -/
structure Section where
  section_id : String
  days : List String
  begin_ : String
  end_ : String
  requires_time_slot : Bool
deriving DecidableEq, Repr

/-- A course: its code and its candidate sections. -/
structure Course where
  course : String
  sections : List Section
deriving DecidableEq, Repr

/-- Python `time_to_minutes`: convert an `HH:MM` string to minutes after
midnight; `none` models the exception raised on a malformed string. -/
def time_to_minutes (time_str : String) : Option Int :=
  match splitOnChar ':' time_str.data with
  | [hs, ms] =>
    match digitsToNat? hs, digitsToNat? ms with
    | some hours, some minutes => some ((hours : Int) * 60 + minutes)
    | _, _ => none
  | _ => none

/-- Python `overlaps`: true when the two sections share a meeting day and
their `[start, end)` windows intersect; `none` models the exception raised
when a time string of a day-sharing pair is malformed. -/
def overlaps (section_a section_b : Section) : Option Bool :=
  let common_days := section_a.days.filter (fun d => section_b.days.contains d)
  if common_days.isEmpty then some false
  else
    match time_to_minutes section_a.begin_, time_to_minutes section_a.end_,
          time_to_minutes section_b.begin_, time_to_minutes section_b.end_ with
    | some start_a, some end_a, some start_b, some end_b =>
      some (!(decide (end_a ≤ start_b) || decide (end_b ≤ start_a)))
    | _, _, _, _ => none

/-- Python `f"{course}|{section_id}|{idx}"`. -/
def var_name (code sid : String) (idx : Nat) : String :=
  code ++ "|" ++ sid ++ "|" ++ toString idx

/-- The `(variable name, section)` pairs of a course's section list, with the
enumeration index used in the variable name. -/
def sections_with_names (code : String) : Nat → List Section → List (String × Section)
  | _, [] => []
  | i, s :: rest => (var_name code s.section_id i, s) :: sections_with_names code (i + 1) rest

/-- Variable names of one course, in section order. -/
def course_var_names (c : Course) : List String :=
  (sections_with_names c.course 0 c.sections).map Prod.fst

/-- All variable names, in course/section order: the dense index map
`index_to_var` of `build_qubo` (position = dense index). -/
def all_var_names (courses : List Course) : List String :=
  courses.flatMap course_var_names

/-- All `(variable name, section)` pairs across courses (`all_sections` in
`build_qubo`). -/
def all_sections (courses : List Course) : List (String × Section) :=
  courses.flatMap (fun c => sections_with_names c.course 0 c.sections)

/-- The course-selection constraint terms of one course in `build_qubo`:
`linear[v] += -1.0 * course_penalty` for each candidate variable,
`offset += course_penalty`, and `quadratic[sorted pair] += 2 * course_penalty`
for each unordered pair of candidates. -/
def add_course_terms (course_penalty : ℚ) (st : LinMap × QuadMap × ℚ) (c : Course) :
    LinMap × QuadMap × ℚ :=
  let vars_for_course := course_var_names c
  let linear := vars_for_course.foldl (fun d v => dadd d v (-course_penalty)) st.1
  let quadratic := (combinations2 vars_for_course).foldl
      (fun d pr => dadd d (sortPair pr.1 pr.2) (2 * course_penalty)) st.2.1
  (linear, quadratic, st.2.2 + course_penalty)

/-- State after variable creation and the course-selection loop of
`build_qubo` (linear map, quadratic map, offset). -/
def phase2_state (courses : List Course) (course_penalty : ℚ) : LinMap × QuadMap × ℚ :=
  let linear0 := (all_var_names courses).foldl (fun d v => dsetdefault d v 0) []
  courses.foldl (fun st c => add_course_terms course_penalty st c) (linear0, [], 0)

/-- The conflict loop of `build_qubo`: for every ordered pair of sections, if
they overlap add `conflict_penalty` at the sorted name pair; a malformed time
in a day-sharing pair aborts (`none`). -/
def conflict_scan (conflict_penalty : ℚ) :
    List ((String × Section) × (String × Section)) → QuadMap → Option QuadMap
  | [], q => some q
  | pr :: rest, q =>
    match overlaps pr.1.2 pr.2.2 with
    | none => none
    | some ov =>
      conflict_scan conflict_penalty rest
        (if ov then dadd q (sortPair pr.1.1 pr.2.1) conflict_penalty else q)

/-- Python `build_qubo`: returns `(linear, quadratic, offset, index_to_var)`,
with `index_to_var` as the list of names in dense-index order; `none` models
the exception raised by a malformed time string in the conflict scan. -/
def build_qubo (courses : List Course) (course_penalty conflict_penalty : ℚ) :
    Option (LinMap × QuadMap × ℚ × List String) :=
  let index_to_var := all_var_names courses
  let st := phase2_state courses course_penalty
  match conflict_scan conflict_penalty (combinations2 (all_sections courses)) st.2.1 with
  | none => none
  | some quadratic => some (st.1, quadratic, st.2.2, index_to_var)

/-- Python `qubo_to_ising`: map QUBO coefficients to the Ising form
`(h, J, constant)`.  Keys reached by `h[var] += ...` are present whenever the
quadratic keys are drawn from the linear map's keys, as `build_qubo`
guarantees; `dadd` extends the semantics totally. -/
def qubo_to_ising (linear : LinMap) (quadratic : QuadMap) (offset : ℚ) :
    LinMap × QuadMap × ℚ :=
  let h0 : LinMap := linear.map (fun p => (p.1, (0 : ℚ)))
  let s1 := linear.foldl
      (fun (st : ℚ × LinMap) p => (st.1 + p.2 / 2, dadd st.2 p.1 (-p.2 / 2))) (offset, h0)
  let s2 := quadratic.foldl
      (fun (st : ℚ × LinMap × QuadMap) p =>
        (st.1 + p.2 / 4,
         dadd (dadd st.2.1 p.1.1 (-p.2 / 4)) p.1.2 (-p.2 / 4),
         dadd st.2.2 (sortPair p.1.1 p.1.2) (p.2 / 4)))
      (s1.1, s1.2, ([] : QuadMap))
  (s2.2.1, s2.2.2, s2.1)

/-- Python `{var: idx for idx, var in index_to_var.items()}` looked up at one
name: the index of the last occurrence (later items overwrite earlier ones). -/
def last_index_of : List String → String → Option Nat
  | [], _ => none
  | x :: xs, v =>
    match last_index_of xs v with
    | some i => some (i + 1)
    | none => if x = v then some 0 else none

/-- First loop of `evaluate_qubo`: `for idx, bit in enumerate(bits): energy +=
linear.get(index_to_var[idx], 0.0) * bit`; `none` models the `KeyError` when
the bitstring is longer than the variable list. -/
def eval_linear_loop (linear : LinMap) : ℚ → List ℚ → List String → Option ℚ
  | acc, [], _ => some acc
  | _, _ :: _, [] => none
  | acc, bit :: bits, v :: vars =>
    eval_linear_loop linear (acc + dget linear v 0 * bit) bits vars

/-- Second loop of `evaluate_qubo`: add `coeff * bits[idx_a] * bits[idx_b]` for
every quadratic entry; `none` models `KeyError`/`IndexError` on unindexed
variables or out-of-range indices. -/
def eval_quadratic_loop (bits : List ℚ) (index_to_var : List String) :
    ℚ → QuadMap → Option ℚ
  | acc, [] => some acc
  | acc, p :: rest =>
    match last_index_of index_to_var p.1.1, last_index_of index_to_var p.1.2 with
    | some ia, some ib =>
      match bits.get? ia, bits.get? ib with
      | some ba, some bb => eval_quadratic_loop bits index_to_var (acc + p.2 * ba * bb) rest
      | _, _ => none
    | _, _ => none

/-- Python `evaluate_qubo`: QUBO energy of a bitstring. -/
def evaluate_qubo (bits : List ℚ) (linear : LinMap) (quadratic : QuadMap)
    (offset : ℚ) (index_to_var : List String) : Option ℚ :=
  match eval_linear_loop linear offset bits index_to_var with
  | none => none
  | some e => eval_quadratic_loop bits index_to_var e quadratic

/-- Value of an indexed assignment at a variable name: the entry of `vals` at
the variable's (last) dense index, `0` when the name is not indexed. -/
def valueAt (vals : List ℚ) (index_to_var : List String) (v : String) : ℚ :=
  match last_index_of index_to_var v with
  | some i => vals.getD i 0
  | none => 0

/-- Weighted sum of a coefficient dictionary against an assignment. -/
def msum {K : Type} (d : List (K × ℚ)) (f : K → ℚ) : ℚ :=
  (d.map (fun p => p.2 * f p.1)).sum

/-- Spin encoding of a bitstring: bit 1 becomes spin -1, bit 0 spin +1
(`x = (1 - z) / 2`). -/
def spin_of_bits (bits : List ℚ) : List ℚ := bits.map (fun b => 1 - 2 * b)

/-- Modelled from the spec: the repository has no Ising-energy evaluator of its
own (§4.2/§8 define the property against it), so this is the spec's
`Ising_energy`: the constant plus the fields `h` against the spins plus the
couplings `J` against spin products, spins addressed through the same
`index_to_var` dense indexing as `evaluate_qubo`. -/
def evaluate_ising (spins : List ℚ) (h : LinMap) (J : QuadMap) (constant : ℚ)
    (index_to_var : List String) : ℚ :=
  constant + msum h (valueAt spins index_to_var)
    + msum J (fun k => valueAt spins index_to_var k.1 * valueAt spins index_to_var k.2)

/-- Loop of `interpret_selection`: for each set bit, split the variable name on
`|` into exactly three components and store `chosen[course] = section`;
`none` models the `ValueError`/`KeyError` on malformed names or a bitstring
longer than the variable list. -/
def interp_loop : List (String × String) → List ℚ → List String →
    Option (List (String × String))
  | acc, [], _ => some acc
  | _, _ :: _, [] => none
  | acc, bit :: bits, v :: vars =>
    if bit ≠ 0 then
      match splitOnChar '|' v.data with
      | [course_code, section_id, _] =>
        interp_loop (dset acc (String.mk course_code) (String.mk section_id)) bits vars
      | _ => none
    else interp_loop acc bits vars

/-- Python `interpret_selection`: map a bitstring back to a course → section
dictionary. -/
def interpret_selection (bits : List ℚ) (index_to_var : List String) :
    Option (List (String × String)) :=
  interp_loop [] bits index_to_var

/-- The `(course, section)` components of the selected (bit = 1) variables, in
dense-index order; stated from the claim's words for comparison with
`interpret_selection`. -/
def selected_pairs (bits : List ℚ) (index_to_var : List String) :
    List (String × String) :=
  (List.zip bits index_to_var).filterMap (fun (pb : ℚ × String) =>
    match splitOnChar '|' pb.2.data with
    | [c, s, _] => if pb.1 = 1 then some (String.mk c, String.mk s) else none
    | _ => none)

/-- Parse a `%I:%M%p` time string (e.g. `08:00AM`) to minutes after midnight,
mirroring `datetime.strptime(s, "%I:%M%p")`: hour 1–12 in at most two digits,
minutes 0–59 in at most two digits, then a case-insensitive AM/PM marker,
with 12AM mapping to hour 0 and 12PM to hour 12. -/
def parse_time_ampm (s : String) : Option Nat :=
  match splitOnChar ':' s.data with
  | [hcs, mcs] =>
    if hcs.length = 0 ∨ 2 < hcs.length then none
    else
      match digitsToNat? hcs with
      | none => none
      | some h =>
        if h < 1 ∨ 12 < h then none
        else
          let mdigits := mcs.take (mcs.length - 2)
          let mer := (mcs.drop (mcs.length - 2)).map Char.toUpper
          if mdigits.length = 0 ∨ 2 < mdigits.length then none
          else
            match digitsToNat? mdigits with
            | none => none
            | some m =>
              if 59 < m then none
              else if mer = ['A', 'M'] then some ((if h = 12 then 0 else h) * 60 + m)
              else if mer = ['P', 'M'] then some ((if h = 12 then 12 else h + 12) * 60 + m)
              else none
  | _ => none

/-- Python `calculate_duration_slots` from `scheduling-classical.py`:
`none` arguments model `NaN` cells; a `TBA` begin cell, or any parse failure,
falls back to the default of one slot; otherwise the span in minutes is
rounded up greedily to whole hours with a floor of one slot. -/
def calculate_duration_slots (begin_str end_str : Option String) : Int :=
  match begin_str, end_str with
  | none, _ => 1
  | _, none => 1
  | some bs, some es =>
    if bs = "TBA" then 1
    else
      match parse_time_ampm bs, parse_time_ampm es with
      | some t1, some t2 =>
        max 1 (Int.ceil (((t2 : ℚ) - (t1 : ℚ)) / 60))
      | _, _ => 1

/-- The weekday list of the ILP builders. -/
def ilp_days : List String := ["Mon", "Tue", "Wed", "Thu", "Fri"]

/-- `slots_per_day[day]`: the timeslots whose label starts with the day name
(Python `t.startswith(day)`, phrased on the character lists). -/
def day_slots_for (timeslots : List String) (day : String) : List String :=
  timeslots.filter (fun t => day.data.isPrefixOf t.data)

/-- Variable-key generation of `build_and_run_model` in
`scheduling-classical.py`: for each meeting and room, skip the room entirely
when its capacity is below the meeting's enrollment, otherwise create one key
per day and valid start slot (`len(day_slots) - duration + 1` start indices). -/
def gen_vars (meetings rooms timeslots : List String)
    (meeting_enrollment room_capacity meeting_duration : String → Int) :
    List (String × String × String) :=
  meetings.flatMap (fun meeting =>
    rooms.flatMap (fun room =>
      if room_capacity room < meeting_enrollment meeting then []
      else
        ilp_days.flatMap (fun day =>
          let day_slots := day_slots_for timeslots day
          let valid_start_indices : Int :=
            (day_slots.length : Int) - meeting_duration meeting + 1
          (List.range valid_start_indices.toNat).filterMap
            (fun i => (day_slots.get? i).map (fun t_start => (meeting, t_start, room))))))

/-- Variable-key generation of `build_and_run_model` in
`scheduling-classical-mini.py`: rooms are first sorted by capacity (stable,
ascending), then the same capacity pre-filter and start-slot loops run; the
objective weights do not affect which keys are created. -/
def gen_vars_mini (meetings rooms timeslots : List String)
    (meeting_enrollment room_capacity meeting_duration : String → Int) :
    List (String × String × String) :=
  let sorted_rooms := rooms.mergeSort (fun r1 r2 => decide (room_capacity r1 ≤ room_capacity r2))
  meetings.flatMap (fun meeting =>
    sorted_rooms.flatMap (fun room =>
      if room_capacity room < meeting_enrollment meeting then []
      else
        ilp_days.flatMap (fun day =>
          let day_slots := day_slots_for timeslots day
          let valid_start_indices : Int :=
            (day_slots.length : Int) - meeting_duration meeting + 1
          (List.range valid_start_indices.toNat).filterMap
            (fun i => (day_slots.get? i).map (fun t_start => (meeting, t_start, room))))))

/-! ## Dictionary lemmas -/

theorem dget_dadd_self {K : Type} [DecidableEq K] (d : List (K × ℚ)) (k : K) (v : ℚ) :
    dget (dadd d k v) k 0 = dget d k 0 + v := by
  induction d with
  | nil => simp [dget, dadd]
  | cons p rest ih =>
    by_cases h : p.1 = k
    · simp [dget, dadd, h]
    · simp [dget, dadd, h, ih]

theorem dget_dadd_ne {K : Type} [DecidableEq K] (d : List (K × ℚ)) (k k' : K) (v x : ℚ)
    (h : k' ≠ k) : dget (dadd d k v) k' x = dget d k' x := by
  have hkk : k ≠ k' := fun hh => h hh.symm
  induction d with
  | nil => simp [dget, dadd, hkk]
  | cons p rest ih =>
    by_cases hp : p.1 = k
    · have hne : p.1 ≠ k' := by rw [hp]; exact hkk
      simp [dadd, hp, dget, hne, hkk]
    · by_cases hp' : p.1 = k'
      · simp [dadd, hp, dget, hp', hkk, h]
      · simp [dadd, hp, dget, hp', ih]

theorem dkeys_dadd {K : Type} [DecidableEq K] (d : List (K × ℚ)) (k : K) (v : ℚ) :
    dkeys (dadd d k v) = dkeys d ∨ dkeys (dadd d k v) = dkeys d ++ [k] := by
  induction d with
  | nil => right; simp [dadd, dkeys]
  | cons p rest ih =>
    by_cases h : p.1 = k
    · left; simp [dadd, dkeys, h]
    · rcases ih with ih | ih
      · left; simp [dadd, dkeys, h]; simpa [dkeys] using ih
      · right; simp [dadd, dkeys, h]; simpa [dkeys] using ih

theorem mem_dkeys_dadd {K : Type} [DecidableEq K] (d : List (K × ℚ)) (k k' : K) (v : ℚ)
    (h : k' ∈ dkeys (dadd d k v)) : k' ∈ dkeys d ∨ k' = k := by
  rcases dkeys_dadd d k v with hd | hd
  · rw [hd] at h; exact Or.inl h
  · rw [hd] at h
    rcases List.mem_append.mp h with h | h
    · exact Or.inl h
    · exact Or.inr (List.mem_singleton.mp h)

theorem dfst_dadd_mem {K : Type} [DecidableEq K] (d : List (K × ℚ)) (k : K) (v : ℚ)
    (h : k ∈ dkeys d) : dkeys (dadd d k v) = dkeys d := by
  induction d with
  | nil => simp [dkeys] at h
  | cons p rest ih =>
    by_cases hp : p.1 = k
    · simp [dadd, dkeys, hp]
    · have h' : k ∈ dkeys rest := by
        simp only [dkeys, List.map_cons, List.mem_cons] at h
        rcases h with h | h
        · exact absurd h (fun hh => hp hh.symm)
        · exact h
      have ih' := ih h'
      simp only [dkeys] at ih'
      simp [dadd, dkeys, hp, ih']

/-! ## Weighted-sum lemmas -/

theorem msum_nil {K : Type} (f : K → ℚ) : msum ([] : List (K × ℚ)) f = 0 := rfl

theorem msum_cons {K : Type} (p : K × ℚ) (d : List (K × ℚ)) (f : K → ℚ) :
    msum (p :: d) f = p.2 * f p.1 + msum d f := by
  simp [msum]

theorem msum_dadd {K : Type} [DecidableEq K] (d : List (K × ℚ)) (k : K) (v : ℚ) (f : K → ℚ) :
    msum (dadd d k v) f = msum d f + v * f k := by
  induction d with
  | nil => simp [dadd, msum]
  | cons p rest ih =>
    by_cases h : p.1 = k
    · subst h
      simp [dadd, msum_cons]
      ring
    · simp [dadd, h, msum_cons, ih]
      ring

theorem msum_congr {K : Type} (d : List (K × ℚ)) (f g : K → ℚ)
    (h : ∀ p ∈ d, f p.1 = g p.1) : msum d f = msum d g := by
  induction d with
  | nil => rfl
  | cons p rest ih =>
    rw [msum_cons, msum_cons, h p (List.mem_cons_self p rest),
      ih (fun q hq => h q (List.mem_cons_of_mem p hq))]

theorem msum_add_fun {K : Type} (d : List (K × ℚ)) (f g : K → ℚ) :
    msum d f + msum d g = msum d (fun k => f k + g k) := by
  induction d with
  | nil => simp [msum_nil]
  | cons p rest ih =>
    rw [msum_cons, msum_cons, msum_cons, ← ih]
    ring

theorem msum_zero_values {K : Type} (l : List (K × ℚ)) (f : K → ℚ) :
    msum (l.map (fun p => (p.1, (0 : ℚ)))) f = 0 := by
  induction l with
  | nil => rfl
  | cons p rest ih => simp [msum_cons, ih]

/-- Folding `dadd` with a fixed weight over a list of keys adds the weight
times the sum of the assignment over those keys. -/
theorem msum_foldl_dadd {K A : Type} [DecidableEq K] (xs : List A) (kf : A → K) (w : ℚ)
    (d : List (K × ℚ)) (f : K → ℚ) :
    msum (xs.foldl (fun d x => dadd d (kf x) w) d) f
      = msum d f + w * (xs.map (fun x => f (kf x))).sum := by
  induction xs generalizing d with
  | nil => simp
  | cons x rest ih =>
    rw [List.foldl_cons, ih, msum_dadd, List.map_cons, List.sum_cons]
    ring

/-- Folding `dadd` with a fixed weight: the resulting coefficient at a key is
the original one plus the weight times the number of inserted keys equal to
it. -/
theorem dget_foldl_dadd_count {K A : Type} [DecidableEq K] (xs : List A) (kf : A → K) (w : ℚ)
    (d : List (K × ℚ)) (k : K) :
    dget (xs.foldl (fun d x => dadd d (kf x) w) d) k 0
      = dget d k 0 + w * ((xs.map kf).count k : ℚ) := by
  induction xs generalizing d with
  | nil => simp
  | cons x rest ih =>
    rw [List.foldl_cons, ih, List.map_cons]
    by_cases h : kf x = k
    · rw [h, dget_dadd_self, List.count_cons_self]
      push_cast
      ring
    · rw [dget_dadd_ne _ _ _ _ _ (fun hh => h hh.symm), List.count_cons_of_ne (fun hh => h hh.symm)]

theorem mem_dkeys_foldl_dadd {K A : Type} [DecidableEq K] (xs : List A) (kf : A → K) (w : ℚ)
    (d : List (K × ℚ)) (k : K) (h : k ∈ dkeys (xs.foldl (fun d x => dadd d (kf x) w) d)) :
    k ∈ dkeys d ∨ ∃ x ∈ xs, k = kf x := by
  induction xs generalizing d with
  | nil => exact Or.inl h
  | cons x rest ih =>
    rw [List.foldl_cons] at h
    rcases ih _ h with h' | h'
    · rcases mem_dkeys_dadd _ _ _ _ h' with h'' | h''
      · exact Or.inl h''
      · exact Or.inr ⟨x, List.mem_cons_self x rest, h''⟩
    · rcases h' with ⟨y, hy, hk⟩
      exact Or.inr ⟨y, List.mem_cons_of_mem x hy, hk⟩

theorem dfst_foldl_dadd_mem {K A : Type} [DecidableEq K] (xs : List A) (kf : A → K) (w : ℚ)
    (d : List (K × ℚ)) (h : ∀ x ∈ xs, kf x ∈ dkeys d) :
    dkeys (xs.foldl (fun d x => dadd d (kf x) w) d) = dkeys d := by
  induction xs generalizing d with
  | nil => rfl
  | cons x rest ih =>
    rw [List.foldl_cons, ih]
    · exact dfst_dadd_mem d (kf x) w (h x (List.mem_cons_self x rest))
    · intro y hy
      rw [dfst_dadd_mem d (kf x) w (h x (List.mem_cons_self x rest))]
      exact h y (List.mem_cons_of_mem x hy)

/-! ## Index-lookup lemmas -/

theorem last_index_of_eq_none_iff (vs : List String) (v : String) :
    last_index_of vs v = none ↔ v ∉ vs := by
  induction vs with
  | nil => simp [last_index_of]
  | cons x xs ih =>
    simp only [last_index_of]
    cases hx : last_index_of xs v with
    | some i =>
      have hvxs : v ∈ xs := by
        by_contra hc
        rw [ih.mpr hc] at hx
        exact Option.noConfusion hx
      simp [List.mem_cons, hvxs]
    | none =>
      have hvxs : v ∉ xs := ih.mp hx
      by_cases h : x = v
      · subst h
        simp [List.mem_cons]
      · have hvx : v ≠ x := fun hh => h hh.symm
        simp [h, hvx, hvxs, List.mem_cons]

theorem last_index_of_lt (vs : List String) (v : String) (i : Nat)
    (h : last_index_of vs v = some i) : i < vs.length ∧ vs.get? i = some v := by
  induction vs generalizing i with
  | nil => simp [last_index_of] at h
  | cons x xs ih =>
    simp only [last_index_of] at h
    cases hx : last_index_of xs v with
    | some j =>
      rw [hx] at h
      obtain rfl : j + 1 = i := by simpa using h
      obtain ⟨h1, h2⟩ := ih j hx
      exact ⟨by simpa using h1, by simpa using h2⟩
    | none =>
      rw [hx] at h
      by_cases hv : x = v
      · rw [if_pos hv] at h
        obtain rfl : 0 = i := by simpa using h
        simp [hv]
      · simp [if_neg hv] at h

theorem last_index_of_mem (vs : List String) (v : String) (h : v ∈ vs) :
    ∃ i, last_index_of vs v = some i := by
  cases hx : last_index_of vs v with
  | none => exact absurd h ((last_index_of_eq_none_iff vs v).mp hx)
  | some i => exact ⟨i, rfl⟩

theorem getD_map_of_lt (f : ℚ → ℚ) (l : List ℚ) (i : Nat) (h : i < l.length) :
    (l.map f).getD i 0 = f (l.getD i 0) := by
  induction l generalizing i with
  | nil => simp at h
  | cons x xs ih =>
    cases i with
    | zero => simp
    | succ j => simpa using ih j (by simpa using h)

theorem valueAt_cons_head (b : ℚ) (bs : List ℚ) (v : String) (vs : List String)
    (h : v ∉ vs) : valueAt (b :: bs) (v :: vs) v = b := by
  simp [valueAt, last_index_of, (last_index_of_eq_none_iff vs v).mpr h]

theorem valueAt_cons_tail (b : ℚ) (bs : List ℚ) (v v' : String) (vs : List String)
    (h : v' ∈ vs) : valueAt (b :: bs) (v :: vs) v' = valueAt bs vs v' := by
  obtain ⟨i, hi⟩ := last_index_of_mem vs v' h
  simp [valueAt, last_index_of, hi]

theorem map_valueAt_positional (bs : List ℚ) (vs : List String)
    (hnd : vs.Nodup) (hlen : bs.length = vs.length) :
    vs.map (valueAt bs vs) = bs := by
  induction vs generalizing bs with
  | nil => simpa using List.length_eq_zero.mp hlen
  | cons v vs ih =>
    cases bs with
    | nil => simp at hlen
    | cons b bs =>
      have hnotmem : v ∉ vs := (List.nodup_cons.mp hnd).1
      rw [List.map_cons, valueAt_cons_head b bs v vs hnotmem,
        List.map_congr_left (fun v' hv' => valueAt_cons_tail b bs v v' vs hv'),
        ih bs (List.nodup_cons.mp hnd).2 (by simpa using hlen)]

theorem valueAt_spin (bits : List ℚ) (ivar : List String) (v : String)
    (hv : v ∈ ivar) (hlen : bits.length = ivar.length) :
    valueAt (spin_of_bits bits) ivar v = 1 - 2 * valueAt bits ivar v := by
  obtain ⟨i, hi⟩ := last_index_of_mem ivar v hv
  obtain ⟨hlt, _⟩ := last_index_of_lt ivar v i hi
  simp only [valueAt, hi, spin_of_bits]
  exact getD_map_of_lt (fun b => 1 - 2 * b) bits i (hlen ▸ hlt)

/-! ## Sorted-pair lemmas -/

theorem sortPair_le (a b : String) : (sortPair a b).1 ≤ (sortPair a b).2 := by
  unfold sortPair
  split
  · exact le_of_lt (by assumption)
  · exact le_of_not_lt (by assumption)

theorem sortPair_mul (f : String → ℚ) (a b : String) :
    f (sortPair a b).1 * f (sortPair a b).2 = f a * f b := by
  unfold sortPair
  split
  · exact mul_comm _ _
  · rfl

theorem sortPair_eq_min_max (a b : String) : sortPair a b = (min a b, max a b) := by
  unfold sortPair
  split
  · rename_i h
    rw [min_eq_right (le_of_lt h), max_eq_left (le_of_lt h)]
  · rename_i h
    rw [min_eq_left (le_of_not_lt h), max_eq_right (le_of_not_lt h)]

theorem sortPair_eq_iff (a b c d : String) :
    sortPair a b = sortPair c d ↔ (a = c ∧ b = d) ∨ (a = d ∧ b = c) := by
  constructor
  · intro h
    rw [sortPair_eq_min_max, sortPair_eq_min_max, Prod.mk.injEq] at h
    obtain ⟨hmin, hmax⟩ := h
    rcases le_total a b with hab | hab <;> rcases le_total c d with hcd | hcd
    · rw [min_eq_left hab, min_eq_left hcd] at hmin
      rw [max_eq_right hab, max_eq_right hcd] at hmax
      exact Or.inl ⟨hmin, hmax⟩
    · rw [min_eq_left hab, min_eq_right hcd] at hmin
      rw [max_eq_right hab, max_eq_left hcd] at hmax
      exact Or.inr ⟨hmin, hmax⟩
    · rw [min_eq_right hab, min_eq_left hcd] at hmin
      rw [max_eq_left hab, max_eq_right hcd] at hmax
      exact Or.inr ⟨hmax, hmin⟩
    · rw [min_eq_right hab, min_eq_right hcd] at hmin
      rw [max_eq_left hab, max_eq_left hcd] at hmax
      exact Or.inl ⟨hmax, hmin⟩
  · rintro (⟨rfl, rfl⟩ | ⟨rfl, rfl⟩)
    · rfl
    · rw [sortPair_eq_min_max, sortPair_eq_min_max, min_comm, max_comm]

theorem sortPair_component_iff (a b x : String) :
    ((sortPair a b).1 = x ∨ (sortPair a b).2 = x) ↔ (a = x ∨ b = x) := by
  unfold sortPair
  split <;> tauto

/-! ## Combination lemmas -/

theorem mem_combinations2 {α : Type} (l : List α) (p : α × α)
    (h : p ∈ combinations2 l) : p.1 ∈ l ∧ p.2 ∈ l := by
  induction l with
  | nil => simp [combinations2] at h
  | cons x xs ih =>
    simp only [combinations2, List.mem_append, List.mem_map] at h
    rcases h with ⟨y, hy, rfl⟩ | h
    · exact ⟨List.mem_cons_self x xs, List.mem_cons_of_mem x hy⟩
    · obtain ⟨h1, h2⟩ := ih h
      exact ⟨List.mem_cons_of_mem x h1, List.mem_cons_of_mem x h2⟩

theorem combinations2_map {α β : Type} (f : α → β) (l : List α) :
    combinations2 (l.map f) = (combinations2 l).map (fun p => (f p.1, f p.2)) := by
  induction l with
  | nil => rfl
  | cons x xs ih => simp [combinations2, ih, List.map_map, Function.comp]

theorem sum_map_mul_left_q (x : ℚ) (l : List ℚ) :
    (l.map (fun y => x * y)).sum = x * l.sum := by
  induction l with
  | nil => simp
  | cons z zs ih =>
    simp only [List.map_cons, List.sum_cons, ih]
    ring

theorem combinations2_prod_sum (l : List ℚ) :
    ((combinations2 l).map (fun p => p.1 * p.2)).sum
      = (l.sum ^ 2 - (l.map (fun x => x ^ 2)).sum) / 2 := by
  induction l with
  | nil => simp [combinations2]
  | cons x xs ih =>
    have hmap : ((xs.map (fun y => (x, y))).map (fun p : ℚ × ℚ => p.1 * p.2))
        = xs.map (fun y => x * y) := by
      simp [List.map_map, Function.comp]
    simp only [combinations2, List.map_append, List.sum_append, hmap,
      sum_map_mul_left_q, ih,
      List.map_cons, List.sum_cons]
    ring

theorem nodup_combinations2_sortPair (l : List String) (h : l.Nodup) :
    ((combinations2 l).map (fun p => sortPair p.1 p.2)).Nodup := by
  induction l with
  | nil => simp [combinations2]
  | cons x xs ih =>
    obtain ⟨hx, hxs⟩ := List.nodup_cons.mp h
    simp only [combinations2, List.map_append, List.map_map]
    refine List.Nodup.append ?_ (ih hxs) ?_
    · refine List.Nodup.map_on ?_ hxs
      intro y1 h1 y2 h2 he
      simp only [Function.comp] at he
      rcases (sortPair_eq_iff x y1 x y2).mp he with ⟨_, h'⟩ | ⟨h', _⟩
      · exact h'
      · exact absurd (h' ▸ h2) hx
    · intro a ha hb
      simp only [List.mem_map, Function.comp] at ha hb
      obtain ⟨y, hy, rfl⟩ := ha
      obtain ⟨p, hp, he⟩ := hb
      obtain ⟨hp1, hp2⟩ := mem_combinations2 xs p hp
      rcases (sortPair_eq_iff p.1 p.2 x y).mp he with ⟨h', _⟩ | ⟨_, h'⟩
      · exact hx (h' ▸ hp1)
      · exact hx (h' ▸ hp2)

/-! ## Evaluation-loop lemmas -/

theorem get?_eq_some_getD (l : List ℚ) (i : Nat) (h : i < l.length) :
    l.get? i = some (l.getD i 0) := by
  induction l generalizing i with
  | nil => simp at h
  | cons x xs ih =>
    cases i with
    | zero => rfl
    | succ j => simpa using ih j (by simpa using h)

theorem zipWith_snd_congr (f g : String → ℚ) (bs : List ℚ) (vs : List String)
    (h : ∀ v ∈ vs, f v = g v) :
    List.zipWith (fun b v => f v * b) bs vs = List.zipWith (fun b v => g v * b) bs vs := by
  induction bs generalizing vs with
  | nil => simp
  | cons b bs ih =>
    cases vs with
    | nil => simp
    | cons v vs =>
      rw [List.zipWith_cons_cons, List.zipWith_cons_cons,
        h v (List.mem_cons_self v vs), ih vs (fun v' hv' => h v' (List.mem_cons_of_mem v hv'))]

theorem eval_linear_loop_eq (L : LinMap) (bits : List ℚ) (vs : List String) (acc : ℚ)
    (hlen : bits.length ≤ vs.length) :
    eval_linear_loop L acc bits vs
      = some (acc + (List.zipWith (fun b v => dget L v 0 * b) bits vs).sum) := by
  induction bits generalizing vs acc with
  | nil => simp [eval_linear_loop]
  | cons b bs ih =>
    cases vs with
    | nil => simp at hlen
    | cons v vs =>
      rw [eval_linear_loop, ih vs _ (by simpa using hlen), List.zipWith_cons_cons,
        List.sum_cons]
      congr 1
      ring

theorem zip_sum_eq_msum (L : LinMap) (bits : List ℚ)
    (hnd : (dkeys L).Nodup) (hlen : bits.length = L.length) :
    (List.zipWith (fun b v => dget L v 0 * b) bits (dkeys L)).sum
      = msum L (valueAt bits (dkeys L)) := by
  induction L generalizing bits with
  | nil =>
    obtain rfl : bits = [] := List.length_eq_zero.mp (by simpa using hlen)
    simp [msum_nil, dkeys]
  | cons p L ih =>
    cases bits with
    | nil => simp at hlen
    | cons b bs =>
      have hkeys : dkeys (p :: L) = p.1 :: dkeys L := rfl
      have hhead : p.1 ∉ dkeys L := by
        rw [hkeys] at hnd
        exact (List.nodup_cons.mp hnd).1
      have htail : (dkeys L).Nodup := by
        rw [hkeys] at hnd
        exact (List.nodup_cons.mp hnd).2
      rw [hkeys, List.zipWith_cons_cons, List.sum_cons, msum_cons]
      have hget_head : dget (p :: L) p.1 0 = p.2 := by simp [dget]
      have hcongr : List.zipWith (fun b v => dget (p :: L) v 0 * b) bs (dkeys L)
          = List.zipWith (fun b v => dget L v 0 * b) bs (dkeys L) := by
        apply zipWith_snd_congr
        intro v hv
        have hne : p.1 ≠ v := fun hh => hhead (hh ▸ hv)
        simp [dget, hne]
      have hval_head : valueAt (b :: bs) (p.1 :: dkeys L) p.1 = b :=
        valueAt_cons_head b bs p.1 (dkeys L) hhead
      have hmsum : msum L (valueAt (b :: bs) (p.1 :: dkeys L))
          = msum L (valueAt bs (dkeys L)) := by
        apply msum_congr
        intro q hq
        exact valueAt_cons_tail b bs p.1 q.1 (dkeys L)
          (List.mem_map.mpr ⟨q, hq, rfl⟩)
      rw [hget_head, hcongr, hval_head, hmsum, ih bs htail (by simpa using hlen)]

theorem eval_quadratic_loop_eq (bits : List ℚ) (ivar : List String) (Q : QuadMap) (acc : ℚ)
    (hlen : bits.length = ivar.length)
    (hQ : ∀ p ∈ Q, p.1.1 ∈ ivar ∧ p.1.2 ∈ ivar) :
    eval_quadratic_loop bits ivar acc Q
      = some (acc + msum Q (fun k => valueAt bits ivar k.1 * valueAt bits ivar k.2)) := by
  induction Q generalizing acc with
  | nil => simp [eval_quadratic_loop, msum_nil]
  | cons p rest ih =>
    obtain ⟨ha, hb⟩ := hQ p (List.mem_cons_self p rest)
    obtain ⟨ia, hia⟩ := last_index_of_mem ivar p.1.1 ha
    obtain ⟨ib, hib⟩ := last_index_of_mem ivar p.1.2 hb
    obtain ⟨hlta, _⟩ := last_index_of_lt ivar p.1.1 ia hia
    obtain ⟨hltb, _⟩ := last_index_of_lt ivar p.1.2 ib hib
    have hga := get?_eq_some_getD bits ia (hlen ▸ hlta)
    have hgb := get?_eq_some_getD bits ib (hlen ▸ hltb)
    have hva : valueAt bits ivar p.1.1 = bits.getD ia 0 := by simp [valueAt, hia]
    have hvb : valueAt bits ivar p.1.2 = bits.getD ib 0 := by simp [valueAt, hib]
    rw [eval_quadratic_loop]
    simp only [hia, hib, hga, hgb]
    rw [ih _ (fun q hq => hQ q (List.mem_cons_of_mem p hq)), msum_cons, hva, hvb]
    congr 1
    ring

/-- The QUBO energy of a bitstring, as `evaluate_qubo` computes it, in closed
form: offset plus linear and quadratic weighted sums over the per-name
assignment. -/
theorem evaluate_qubo_eq_msum (L : LinMap) (Q : QuadMap) (o : ℚ) (bits : List ℚ)
    (hnd : (dkeys L).Nodup) (hlen : bits.length = L.length)
    (hQ : ∀ p ∈ Q, p.1.1 ∈ dkeys L ∧ p.1.2 ∈ dkeys L) :
    evaluate_qubo bits L Q o (dkeys L)
      = some (o + msum L (valueAt bits (dkeys L))
          + msum Q (fun k => valueAt bits (dkeys L) k.1 * valueAt bits (dkeys L) k.2)) := by
  have hlen' : bits.length = (dkeys L).length := by simpa [dkeys] using hlen
  simp only [evaluate_qubo, eval_linear_loop_eq L bits (dkeys L) o (le_of_eq hlen'),
    zip_sum_eq_msum L bits hnd hlen]
  exact eval_quadratic_loop_eq bits (dkeys L) Q _ hlen' hQ

/-! ## Spin-transform fold lemmas -/

theorem ising_linear_fold (L : LinMap) (acc : ℚ) (h : LinMap) (f : String → ℚ) :
    (L.foldl (fun (st : ℚ × LinMap) p => (st.1 + p.2 / 2, dadd st.2 p.1 (-p.2 / 2))) (acc, h)).1
        = acc + msum L (fun _ => (1 : ℚ) / 2)
      ∧ msum (L.foldl (fun (st : ℚ × LinMap) p =>
            (st.1 + p.2 / 2, dadd st.2 p.1 (-p.2 / 2))) (acc, h)).2 f
        = msum h f + msum L (fun v => -(f v) / 2) := by
  induction L generalizing acc h with
  | nil => simp [msum_nil]
  | cons p rest ih =>
    rw [List.foldl_cons]
    obtain ⟨ih1, ih2⟩ := ih (acc + p.2 / 2) (dadd h p.1 (-p.2 / 2))
    constructor
    · rw [ih1, msum_cons]
      ring
    · rw [ih2, msum_dadd, msum_cons]
      ring

theorem ising_quad_fold (Q : QuadMap) (acc : ℚ) (h : LinMap) (J : QuadMap)
    (f : String → ℚ) (g : String × String → ℚ) :
    (Q.foldl (fun (st : ℚ × LinMap × QuadMap) p =>
        (st.1 + p.2 / 4,
         dadd (dadd st.2.1 p.1.1 (-p.2 / 4)) p.1.2 (-p.2 / 4),
         dadd st.2.2 (sortPair p.1.1 p.1.2) (p.2 / 4))) (acc, h, J)).1
        = acc + msum Q (fun _ => (1 : ℚ) / 4)
      ∧ msum (Q.foldl (fun (st : ℚ × LinMap × QuadMap) p =>
            (st.1 + p.2 / 4,
             dadd (dadd st.2.1 p.1.1 (-p.2 / 4)) p.1.2 (-p.2 / 4),
             dadd st.2.2 (sortPair p.1.1 p.1.2) (p.2 / 4))) (acc, h, J)).2.1 f
        = msum h f + msum Q (fun k => -(f k.1 + f k.2) / 4)
      ∧ msum (Q.foldl (fun (st : ℚ × LinMap × QuadMap) p =>
            (st.1 + p.2 / 4,
             dadd (dadd st.2.1 p.1.1 (-p.2 / 4)) p.1.2 (-p.2 / 4),
             dadd st.2.2 (sortPair p.1.1 p.1.2) (p.2 / 4))) (acc, h, J)).2.2 g
        = msum J g + msum Q (fun k => g (sortPair k.1 k.2) / 4) := by
  induction Q generalizing acc h J with
  | nil => simp [msum_nil]
  | cons p rest ih =>
    rw [List.foldl_cons]
    obtain ⟨ih1, ih2, ih3⟩ := ih (acc + p.2 / 4)
      (dadd (dadd h p.1.1 (-p.2 / 4)) p.1.2 (-p.2 / 4))
      (dadd J (sortPair p.1.1 p.1.2) (p.2 / 4))
    refine ⟨?_, ?_, ?_⟩
    · rw [ih1, msum_cons]
      ring
    · rw [ih2, msum_dadd, msum_dadd, msum_cons]
      ring
    · rw [ih3, msum_dadd, msum_cons]
      ring

/-! ## Ising energy in closed form -/

theorem sortPair_comp_cases (a b : String) :
    ((sortPair a b).1 = a ∧ (sortPair a b).2 = b)
      ∨ ((sortPair a b).1 = b ∧ (sortPair a b).2 = a) := by
  unfold sortPair
  split
  · exact Or.inr ⟨rfl, rfl⟩
  · exact Or.inl ⟨rfl, rfl⟩

theorem evaluate_ising_eq_msum (L : LinMap) (Q : QuadMap) (o : ℚ) (ivar : List String)
    (bits : List ℚ) (hfst : dkeys L = ivar) (hlen : bits.length = ivar.length)
    (hQ : ∀ p ∈ Q, p.1.1 ∈ ivar ∧ p.1.2 ∈ ivar) :
    evaluate_ising (spin_of_bits bits) (qubo_to_ising L Q o).1 (qubo_to_ising L Q o).2.1
      (qubo_to_ising L Q o).2.2 ivar
      = o + msum L (valueAt bits ivar)
        + msum Q (fun k => valueAt bits ivar k.1 * valueAt bits ivar k.2) := by
  have hσ : ∀ v ∈ ivar, valueAt (spin_of_bits bits) ivar v = 1 - 2 * valueAt bits ivar v :=
    fun v hv => valueAt_spin bits ivar v hv hlen
  obtain ⟨l1, l2⟩ := ising_linear_fold L o (L.map fun p => (p.1, (0 : ℚ)))
    (valueAt (spin_of_bits bits) ivar)
  obtain ⟨q1, q2, q3⟩ := ising_quad_fold Q
    (L.foldl (fun (st : ℚ × LinMap) p => (st.1 + p.2 / 2, dadd st.2 p.1 (-p.2 / 2)))
      (o, L.map fun p => (p.1, (0 : ℚ)))).1
    (L.foldl (fun (st : ℚ × LinMap) p => (st.1 + p.2 / 2, dadd st.2 p.1 (-p.2 / 2)))
      (o, L.map fun p => (p.1, (0 : ℚ)))).2
    ([] : QuadMap)
    (valueAt (spin_of_bits bits) ivar)
    (fun k => valueAt (spin_of_bits bits) ivar k.1 * valueAt (spin_of_bits bits) ivar k.2)
  simp only [qubo_to_ising, evaluate_ising]
  rw [q1, q2, q3, l1, l2, msum_zero_values, msum_nil]
  have hsort : msum Q (fun k =>
      (fun k : String × String => valueAt (spin_of_bits bits) ivar k.1
        * valueAt (spin_of_bits bits) ivar k.2) (sortPair k.1 k.2) / 4)
      = msum Q (fun k => valueAt (spin_of_bits bits) ivar k.1
        * valueAt (spin_of_bits bits) ivar k.2 / 4) := by
    apply msum_congr
    intro p _
    simp only [sortPair_mul]
  rw [hsort]
  have hL : msum L (fun _ => (1 : ℚ) / 2) + msum L (fun v =>
      -(valueAt (spin_of_bits bits) ivar v) / 2) = msum L (valueAt bits ivar) := by
    rw [msum_add_fun]
    apply msum_congr
    intro p hp
    have hv : p.1 ∈ ivar := hfst ▸ List.mem_map.mpr ⟨p, hp, rfl⟩
    rw [hσ p.1 hv]
    ring
  have hQs : msum Q (fun _ => (1 : ℚ) / 4)
      + msum Q (fun k => -(valueAt (spin_of_bits bits) ivar k.1
          + valueAt (spin_of_bits bits) ivar k.2) / 4)
      + msum Q (fun k => valueAt (spin_of_bits bits) ivar k.1
          * valueAt (spin_of_bits bits) ivar k.2 / 4)
      = msum Q (fun k => valueAt bits ivar k.1 * valueAt bits ivar k.2) := by
    rw [msum_add_fun, msum_add_fun]
    apply msum_congr
    intro p hp
    obtain ⟨h1, h2⟩ := hQ p hp
    rw [hσ p.1.1 h1, hσ p.1.2 h2]
    ring
  linarith [hL, hQs]

/-! ## Structural lemmas about build_qubo -/

theorem dsetdefault_not_mem {K : Type} [DecidableEq K] (d : List (K × ℚ)) (k : K) (v : ℚ)
    (h : k ∉ dkeys d) : dsetdefault d k v = d ++ [(k, v)] := by
  induction d with
  | nil => rfl
  | cons p rest ih =>
    have hne : p.1 ≠ k := by
      intro hh
      exact h (by simp [dkeys, hh])
    have hrest : k ∉ dkeys rest := fun hh => h (by simp [dkeys] at hh ⊢; exact Or.inr hh)
    simp [dsetdefault, hne, ih hrest]

theorem foldl_dsetdefault_zero (ns : List String) (d : LinMap)
    (hnd : ns.Nodup) (hdisj : ∀ n ∈ ns, n ∉ dkeys d) :
    ns.foldl (fun d v => dsetdefault d v 0) d = d ++ ns.map (fun v => (v, (0 : ℚ))) := by
  induction ns generalizing d with
  | nil => simp
  | cons n ns ih =>
    obtain ⟨hn, hns⟩ := List.nodup_cons.mp hnd
    rw [List.foldl_cons, dsetdefault_not_mem d n 0 (hdisj n (List.mem_cons_self n ns)),
      ih (d ++ [(n, 0)]) hns ?_]
    · simp
    · intro m hm
      have h1 : m ∉ dkeys d := hdisj m (List.mem_cons_of_mem n hm)
      have h2 : m ≠ n := fun hh => hn (hh ▸ hm)
      intro hmem
      rw [show dkeys (d ++ [(n, (0 : ℚ))]) = dkeys d ++ [n] by simp [dkeys]] at hmem
      rcases List.mem_append.mp hmem with hx | hx
      · exact h1 hx
      · exact h2 (List.mem_singleton.mp hx)

theorem dkeys_map_zero (ns : List String) :
    dkeys (ns.map (fun v => (v, (0 : ℚ)))) = ns := by
  induction ns with
  | nil => rfl
  | cons n ns ih => simpa [dkeys] using ih

theorem phase2_fold_keys (p : ℚ) (N : List String) (cs : List Course) :
    ∀ (st : LinMap × QuadMap × ℚ),
    dkeys st.1 = N →
    (∀ k ∈ dkeys st.2.1, ∃ a b, k = sortPair a b ∧ a ∈ N ∧ b ∈ N) →
    (∀ c ∈ cs, ∀ v ∈ course_var_names c, v ∈ N) →
    dkeys (cs.foldl (fun st c => add_course_terms p st c) st).1 = N ∧
    (∀ k ∈ dkeys (cs.foldl (fun st c => add_course_terms p st c) st).2.1,
      ∃ a b, k = sortPair a b ∧ a ∈ N ∧ b ∈ N) := by
  induction cs with
  | nil => exact fun st h1 h2 _ => ⟨h1, h2⟩
  | cons c cs ih =>
    intro st h1 h2 hmem
    rw [List.foldl_cons]
    apply ih
    · show dkeys ((course_var_names c).foldl (fun d v => dadd d v (-p)) st.1) = N
      rw [dfst_foldl_dadd_mem (course_var_names c) (fun v => v) (-p) st.1
        (fun v hv => by rw [h1]; exact hmem c (List.mem_cons_self c cs) v hv)]
      exact h1
    · intro k hk
      rcases mem_dkeys_foldl_dadd (combinations2 (course_var_names c))
          (fun pr => sortPair pr.1 pr.2) (2 * p) st.2.1 k hk with hk' | ⟨pr, hpr, rfl⟩
      · exact h2 k hk'
      · obtain ⟨hp1, hp2⟩ := mem_combinations2 (course_var_names c) pr hpr
        exact ⟨pr.1, pr.2, rfl, hmem c (List.mem_cons_self c cs) pr.1 hp1,
          hmem c (List.mem_cons_self c cs) pr.2 hp2⟩
    · exact fun c' hc' => hmem c' (List.mem_cons_of_mem c hc')

theorem phase2_state_keys (cs : List Course) (p : ℚ)
    (hnd : (all_var_names cs).Nodup) :
    dkeys (phase2_state cs p).1 = all_var_names cs ∧
    (∀ k ∈ dkeys (phase2_state cs p).2.1,
      ∃ a b, k = sortPair a b ∧ a ∈ all_var_names cs ∧ b ∈ all_var_names cs) := by
  have hlin0 : (all_var_names cs).foldl (fun d v => dsetdefault d v 0) ([] : LinMap)
      = (all_var_names cs).map (fun v => (v, (0 : ℚ))) := by
    simpa using foldl_dsetdefault_zero (all_var_names cs) [] hnd (by simp [dkeys])
  simp only [phase2_state, hlin0]
  apply phase2_fold_keys p (all_var_names cs) cs
  · exact dkeys_map_zero (all_var_names cs)
  · simp [dkeys]
  · intro c hc v hv
    exact List.mem_flatMap.mpr ⟨c, hc, hv⟩

theorem conflict_scan_keys (qpen : ℚ)
    (pairs : List ((String × Section) × (String × Section))) (Q0 Q : QuadMap)
    (h : conflict_scan qpen pairs Q0 = some Q) :
    ∀ k ∈ dkeys Q, k ∈ dkeys Q0 ∨ ∃ pr ∈ pairs, k = sortPair pr.1.1 pr.2.1 := by
  induction pairs generalizing Q0 with
  | nil =>
    obtain rfl : Q0 = Q := by simpa [conflict_scan] using h
    exact fun k hk => Or.inl hk
  | cons pr rest ih =>
    rw [conflict_scan] at h
    cases ho : overlaps pr.1.2 pr.2.2 with
    | none => rw [ho] at h; exact absurd h (by simp)
    | some ov =>
      rw [ho] at h
      intro k hk
      rcases ih _ h k hk with hk' | ⟨pr', hpr', heq⟩
      · cases ov with
        | false => exact Or.inl (by simpa using hk')
        | true =>
          rcases mem_dkeys_dadd Q0 (sortPair pr.1.1 pr.2.1) k qpen (by simpa using hk')
            with hk'' | hk''
          · exact Or.inl hk''
          · exact Or.inr ⟨pr, List.mem_cons_self pr rest, hk''⟩
      · exact Or.inr ⟨pr', List.mem_cons_of_mem pr hpr', heq⟩

theorem build_qubo_some_parts (cs : List Course) (p q : ℚ) (L : LinMap) (Q : QuadMap)
    (o : ℚ) (ivar : List String) (h : build_qubo cs p q = some (L, Q, o, ivar)) :
    ivar = all_var_names cs ∧ L = (phase2_state cs p).1 ∧ o = (phase2_state cs p).2.2 ∧
    conflict_scan q (combinations2 (all_sections cs)) (phase2_state cs p).2.1 = some Q := by
  simp only [build_qubo] at h
  cases hc : conflict_scan q (combinations2 (all_sections cs)) (phase2_state cs p).2.1 with
  | none => rw [hc] at h; exact absurd h (by simp)
  | some quad =>
    rw [hc] at h
    obtain ⟨h1, h2, h3, h4⟩ : (phase2_state cs p).1 = L ∧ quad = Q ∧
        (phase2_state cs p).2.2 = o ∧ all_var_names cs = ivar := by
      simpa [Prod.ext_iff] using h
    exact ⟨h4.symm, h1.symm, h3.symm, by rw [← h2]⟩

theorem all_sections_fst (cs : List Course) :
    (all_sections cs).map Prod.fst = all_var_names cs := by
  unfold all_sections all_var_names
  induction cs with
  | nil => rfl
  | cons c cs ih => simp [List.flatMap_cons, ih, course_var_names]

theorem build_qubo_quad_components (cs : List Course) (p q : ℚ) (L : LinMap) (Q : QuadMap)
    (o : ℚ) (ivar : List String) (h : build_qubo cs p q = some (L, Q, o, ivar))
    (hnd : (all_var_names cs).Nodup) :
    ∀ pr ∈ Q, pr.1.1 ∈ all_var_names cs ∧ pr.1.2 ∈ all_var_names cs := by
  obtain ⟨_, _, _, hscan⟩ := build_qubo_some_parts cs p q L Q o ivar h
  intro pr hpr
  have hk : pr.1 ∈ dkeys Q := List.mem_map.mpr ⟨pr, hpr, rfl⟩
  rcases conflict_scan_keys q _ _ Q hscan pr.1 hk with hk' | ⟨pp, hpp, heq⟩
  · obtain ⟨a, b, hab, ha, hb⟩ := (phase2_state_keys cs p hnd).2 pr.1 hk'
    rcases sortPair_comp_cases a b with ⟨e1, e2⟩ | ⟨e1, e2⟩ <;>
      rw [hab] <;> exact ⟨by rw [e1]; assumption, by rw [e2]; assumption⟩
  · obtain ⟨hp1, hp2⟩ := mem_combinations2 (all_sections cs) pp hpp
    have ha : pp.1.1 ∈ all_var_names cs := by
      rw [← all_sections_fst cs]
      exact List.mem_map.mpr ⟨pp.1, hp1, rfl⟩
    have hb : pp.2.1 ∈ all_var_names cs := by
      rw [← all_sections_fst cs]
      exact List.mem_map.mpr ⟨pp.2, hp2, rfl⟩
    rcases sortPair_comp_cases pp.1.1 pp.2.1 with ⟨e1, e2⟩ | ⟨e1, e2⟩ <;>
      rw [heq] <;> exact ⟨by rw [e1]; assumption, by rw [e2]; assumption⟩

/-! ## Claim C1: QUBO / Ising energy equivalence -/

/-- C1 (amended): for every QUBO produced by `build_qubo` whose generated
variable names are pairwise distinct, and every assignment of its variables
(one rational per dense index), the Ising model returned by `qubo_to_ising`
has exactly the same energy as the QUBO energy computed by `evaluate_qubo`,
under the spin correspondence mapping bit 1 to spin -1 and bit 0 to spin +1
(`x = (1 - z)/2`); exact equality over `ℚ` in particular means equality to
within 1e-6.  The distinct-names proviso is forced by the counterexample
`qubo_ising_energy_equivalence_cex`: duplicate course codes make distinct
dense indices share one variable name, and the two energies then differ. -/
theorem qubo_ising_energy_equivalence
    (courses : List Course) (course_penalty conflict_penalty : ℚ)
    (L : LinMap) (Q : QuadMap) (o : ℚ) (ivar : List String) (bits : List ℚ)
    (hbuild : build_qubo courses course_penalty conflict_penalty = some (L, Q, o, ivar))
    (hnd : ivar.Nodup) (hlen : bits.length = ivar.length) :
    evaluate_qubo bits L Q o ivar
      = some (evaluate_ising (spin_of_bits bits) (qubo_to_ising L Q o).1
          (qubo_to_ising L Q o).2.1 (qubo_to_ising L Q o).2.2 ivar) := by
  obtain ⟨hi, hL, -, -⟩ :=
    build_qubo_some_parts courses course_penalty conflict_penalty L Q o ivar hbuild
  subst hi
  have hfst : dkeys L = all_var_names courses := by
    rw [hL]
    exact (phase2_state_keys courses course_penalty hnd).1
  have hQc : ∀ pr ∈ Q, pr.1.1 ∈ dkeys L ∧ pr.1.2 ∈ dkeys L := by
    rw [hfst]
    exact build_qubo_quad_components courses course_penalty conflict_penalty L Q o _
      hbuild hnd
  have hlenL : bits.length = L.length := by
    rw [hlen, ← hfst]
    simp [dkeys]
  have h1 := evaluate_qubo_eq_msum L Q o bits (by rw [hfst]; exact hnd) hlenL hQc
  have h2 := evaluate_ising_eq_msum L Q o (dkeys L) bits rfl
    (by rw [hfst]; exact hlen) hQc
  rw [← hfst, h1, h2]

/-- Duplicate-course-code input on which the unamended C1 fails: both courses
are named `A`, so both dense indices carry the variable name `A|S|0`. -/
def c1CexCourses : List Course :=
  [⟨"A", [⟨"S", [], "", "", true⟩]⟩, ⟨"A", [⟨"S", [], "", "", true⟩]⟩]

/-- C1 counterexample: on `c1CexCourses` (two courses with the same code `A`),
`build_qubo` succeeds, the bitstring `[1, 0]` has QUBO energy `0`, but the
spec's Ising energy of its spin encoding is `10`: the difference exceeds the
claimed 1e-6 tolerance, so the claim as stated is false. -/
theorem qubo_ising_energy_equivalence_cex :
    ((build_qubo c1CexCourses 5 5).map fun r =>
        evaluate_qubo [1, 0] r.1 r.2.1 r.2.2.1 r.2.2.2) = some (some 0)
      ∧ ((build_qubo c1CexCourses 5 5).map fun r =>
          evaluate_ising (spin_of_bits [1, 0]) (qubo_to_ising r.1 r.2.1 r.2.2.1).1
            (qubo_to_ising r.1 r.2.1 r.2.2.1).2.1 (qubo_to_ising r.1 r.2.1 r.2.2.1).2.2
            r.2.2.2) = some 10
      ∧ ¬ (|(0 : ℚ) - 10| ≤ 1 / 1000000) := by
  have hv : var_name "A" "S" 0 = "A|S|0" := by decide
  refine ⟨?_, ?_, by norm_num⟩
  · norm_num [c1CexCourses, build_qubo, phase2_state, all_var_names, course_var_names,
      sections_with_names, hv, add_course_terms, combinations2, dadd, dsetdefault,
      List.foldl, List.flatMap, all_sections, conflict_scan, overlaps, time_to_minutes,
      evaluate_qubo, eval_linear_loop, eval_quadratic_loop, dget, last_index_of]
  · norm_num [c1CexCourses, build_qubo, phase2_state, all_var_names, course_var_names,
      sections_with_names, hv, add_course_terms, combinations2, dadd, dsetdefault,
      List.foldl, List.flatMap, all_sections, conflict_scan, overlaps, time_to_minutes,
      qubo_to_ising, evaluate_ising, msum, valueAt, spin_of_bits, last_index_of, dget]

/-- One course with two distinct sections and no meeting days, used to witness
the amended C1 on a concrete input. -/
def c1WitCourses : List Course :=
  [⟨"X", [⟨"A", [], "", "", true⟩, ⟨"B", [], "", "", true⟩]⟩]

/-- Concrete linear map produced by `build_qubo c1WitCourses 5 5`. -/
def c1WitL : LinMap := [("X|A|0", -5), ("X|B|1", -5)]

/-- Concrete quadratic map produced by `build_qubo c1WitCourses 5 5`. -/
def c1WitQ : QuadMap := [(("X|A|0", "X|B|1"), 10)]

/-- Concrete index list produced by `build_qubo c1WitCourses 5 5`. -/
def c1WitIvar : List String := ["X|A|0", "X|B|1"]

/-- Witness for C1: the hypotheses hold on the concrete one-course input and
the theorem yields the energy equality there. -/
theorem qubo_ising_energy_equivalence_witness :
    build_qubo c1WitCourses 5 5 = some (c1WitL, c1WitQ, 5, c1WitIvar)
      ∧ c1WitIvar.Nodup
      ∧ ([(1 : ℚ), 0]).length = c1WitIvar.length
      ∧ evaluate_qubo [1, 0] c1WitL c1WitQ 5 c1WitIvar
          = some (evaluate_ising (spin_of_bits [1, 0]) (qubo_to_ising c1WitL c1WitQ 5).1
              (qubo_to_ising c1WitL c1WitQ 5).2.1 (qubo_to_ising c1WitL c1WitQ 5).2.2
              c1WitIvar) := by
  have hva : var_name "X" "A" 0 = "X|A|0" := by decide
  have hvb : var_name "X" "B" 1 = "X|B|1" := by decide
  have hs : ¬ ("X|B|1" < "X|A|0") := by rw [String.lt_iff_toList_lt]; decide
  have hne : ¬ ("X|A|0" = "X|B|1") := by decide
  have hb : build_qubo c1WitCourses 5 5 = some (c1WitL, c1WitQ, 5, c1WitIvar) := by
    norm_num [c1WitCourses, build_qubo, phase2_state, all_var_names, course_var_names,
      sections_with_names, hva, hvb, add_course_terms, combinations2, dadd, dsetdefault,
      List.foldl, List.flatMap, all_sections, conflict_scan, overlaps, sortPair, hs, hne,
      c1WitL, c1WitQ, c1WitIvar]
  have hn : c1WitIvar.Nodup := by decide
  have hl : ([(1 : ℚ), 0]).length = c1WitIvar.length := by decide
  exact ⟨hb, hn, hl,
    qubo_ising_energy_equivalence c1WitCourses 5 5 c1WitL c1WitQ 5 c1WitIvar [1, 0]
      hb hn hl⟩

/-! ## Claim C2: per-course coefficient contributions -/

/-- C2 (amended): for each course with candidate-variable set `V` (names
pairwise distinct), the course-selection loop of `build_qubo` adds
`-1 · course_penalty` — not `-2 · course_penalty` — to the linear coefficient
of every `v ∈ V`, adds `2 · course_penalty` to the quadratic coefficient of
every unordered pair of variables in `V`, and adds `course_penalty` to the
constant offset. -/
theorem add_course_terms_coefficients (course_penalty : ℚ) (st : LinMap × QuadMap × ℚ)
    (c : Course) (hnd : (course_var_names c).Nodup) :
    (∀ v ∈ course_var_names c,
        dget (add_course_terms course_penalty st c).1 v 0
          = dget st.1 v 0 + (-1) * course_penalty)
      ∧ (∀ pr ∈ combinations2 (course_var_names c),
        dget (add_course_terms course_penalty st c).2.1 (sortPair pr.1 pr.2) 0
          = dget st.2.1 (sortPair pr.1 pr.2) 0 + 2 * course_penalty)
      ∧ (add_course_terms course_penalty st c).2.2 = st.2.2 + course_penalty := by
  refine ⟨?_, ?_, rfl⟩
  · intro v hv
    show dget ((course_var_names c).foldl (fun d v => dadd d v (-course_penalty)) st.1) v 0
      = _
    rw [dget_foldl_dadd_count (course_var_names c) (fun v => v) (-course_penalty) st.1 v,
      List.map_id' (course_var_names c), List.count_eq_one_of_mem hnd hv]
    push_cast
    ring
  · intro pr hpr
    show dget ((combinations2 (course_var_names c)).foldl
        (fun d pr => dadd d (sortPair pr.1 pr.2) (2 * course_penalty)) st.2.1)
        (sortPair pr.1 pr.2) 0 = _
    rw [dget_foldl_dadd_count (combinations2 (course_var_names c))
        (fun pr => sortPair pr.1 pr.2) (2 * course_penalty) st.2.1 (sortPair pr.1 pr.2),
      List.count_eq_one_of_mem (nodup_combinations2_sortPair (course_var_names c) hnd)
        (List.mem_map.mpr ⟨pr, hpr, rfl⟩)]
    push_cast
    ring

/-- Single-course input used to refute the `-2 · course_penalty` wording. -/
def c2CexCourses : List Course := [⟨"C", [⟨"S", [], "", "", true⟩]⟩]

/-- C2 counterexample: with `course_penalty = 5`, the course with one section
gets linear coefficient `-5` (`-1 · course_penalty`), not `-2 · 5 = -10` as
the claim states. -/
theorem add_course_terms_coefficients_cex :
    ((build_qubo c2CexCourses 5 5).map fun r => dget r.1 "C|S|0" 0) = some (-5)
      ∧ ((-5 : ℚ) ≠ -2 * 5) := by
  have hv : var_name "C" "S" 0 = "C|S|0" := by decide
  constructor
  · norm_num [c2CexCourses, build_qubo, phase2_state, all_var_names, course_var_names,
      sections_with_names, hv, add_course_terms, combinations2, dadd, dsetdefault,
      List.foldl, List.flatMap, all_sections, conflict_scan, overlaps, dget]
  · norm_num

/-- Course with two day-less sections used to witness the amended C2. -/
def c2WitCourse : Course := ⟨"W", [⟨"A", [], "", "", true⟩, ⟨"B", [], "", "", true⟩]⟩

/-- Witness for the amended C2 at a concrete course and empty starting state:
the linear coefficient of `W|A|0` after the course loop is `0 - 5`. -/
theorem add_course_terms_coefficients_witness :
    (course_var_names c2WitCourse).Nodup
      ∧ dget (add_course_terms 5 ([], [], 0) c2WitCourse).1 "W|A|0" 0 = 0 + (-1) * 5 := by
  have hnd : (course_var_names c2WitCourse).Nodup := by decide
  have hv : "W|A|0" ∈ course_var_names c2WitCourse := by decide
  refine ⟨hnd, ?_⟩
  have h := (add_course_terms_coefficients 5 ([], [], 0) c2WitCourse hnd).1 "W|A|0" hv
  simpa [dget] using h

/-! ## Claim C3: exactly-one-section enforcement -/

theorem msum_map_zero_keys (ns : List String) (f : String → ℚ) :
    msum (ns.map (fun v => (v, (0 : ℚ)))) f = 0 := by
  induction ns with
  | nil => rfl
  | cons n rest ih => simp [msum_cons, ih]

theorem conflict_scan_no_overlap (qpen : ℚ)
    (pairs : List ((String × Section) × (String × Section))) (Q0 : QuadMap)
    (h : ∀ pr ∈ pairs, overlaps pr.1.2 pr.2.2 = some false) :
    conflict_scan qpen pairs Q0 = some Q0 := by
  induction pairs with
  | nil => rfl
  | cons pr rest ih =>
    rw [conflict_scan, h pr (List.mem_cons_self pr rest)]
    exact ih (fun pr' hpr' => h pr' (List.mem_cons_of_mem pr hpr'))

theorem sections_with_names_snd_mem (code : String) (i : Nat) (ss : List Section)
    (pr : String × Section) (h : pr ∈ sections_with_names code i ss) : pr.2 ∈ ss := by
  induction ss generalizing i with
  | nil => simp [sections_with_names] at h
  | cons s rest ih =>
    rw [sections_with_names] at h
    rcases List.mem_cons.mp h with h | h
    · rw [h]
      exact List.mem_cons_self s rest
    · exact List.mem_cons_of_mem s (ih (i + 1) h)

theorem sum_sq_eq_sum_of_01 (bits : List ℚ) (h : ∀ b ∈ bits, b = 0 ∨ b = 1) :
    (bits.map (fun x => x ^ 2)).sum = bits.sum := by
  induction bits with
  | nil => rfl
  | cons b bs ih =>
    rw [List.map_cons, List.sum_cons, List.sum_cons,
      ih (fun b' hb' => h b' (List.mem_cons_of_mem b hb'))]
    rcases h b (List.mem_cons_self b bs) with hb | hb <;> rw [hb] <;> norm_num

theorem count_one_cast_eq_sum (bits : List ℚ) (h : ∀ b ∈ bits, b = 0 ∨ b = 1) :
    ((bits.count 1 : ℕ) : ℚ) = bits.sum := by
  induction bits with
  | nil => rfl
  | cons b bs ih =>
    have ihs := ih (fun b' hb' => h b' (List.mem_cons_of_mem b hb'))
    rcases h b (List.mem_cons_self b bs) with hb | hb
    · subst hb
      rw [List.count_cons_of_ne (by norm_num), List.sum_cons, ihs]
      norm_num
    · subst hb
      rw [List.count_cons_self, List.sum_cons]
      push_cast
      rw [ihs]
      ring

/-- C3: for a course with k candidate sections (k ≥ 1, names distinct) none of
which overlap, `build_qubo` on that single course succeeds and the energy of
any 0/1 bitstring is `course_penalty * (m - 1)^2` where `m` counts the
selected variables: assignments selecting exactly one variable are exactly
the minimizers with energy 0 from the course's terms, and every assignment
with `m ≠ 1` scores at least `course_penalty` more. -/
theorem course_exactly_one_enforcement (c : Course)
    (course_penalty conflict_penalty : ℚ) (bits : List ℚ)
    (hp : 0 < course_penalty)
    (hk : 1 ≤ c.sections.length)
    (hnd : (course_var_names c).Nodup)
    (hno : ∀ pr ∈ combinations2 (all_sections [c]), overlaps pr.1.2 pr.2.2 = some false)
    (hlen : bits.length = (course_var_names c).length)
    (hbits : ∀ b ∈ bits, b = 0 ∨ b = 1) :
    ∃ L Q o ivar, build_qubo [c] course_penalty conflict_penalty = some (L, Q, o, ivar)
      ∧ evaluate_qubo bits L Q o ivar
          = some (course_penalty * ((bits.count 1 : ℕ) - 1) ^ 2)
      ∧ (bits.count 1 = 1 → evaluate_qubo bits L Q o ivar = some 0)
      ∧ (bits.count 1 ≠ 1 → ∀ e, evaluate_qubo bits L Q o ivar = some e →
          course_penalty ≤ e) := by
  have hN1 : all_var_names [c] = course_var_names c := by
    simp [all_var_names]
  have hscan := conflict_scan_no_overlap conflict_penalty
    (combinations2 (all_sections [c])) (phase2_state [c] course_penalty).2.1 hno
  have hbuild : build_qubo [c] course_penalty conflict_penalty
      = some ((phase2_state [c] course_penalty).1, (phase2_state [c] course_penalty).2.1,
          (phase2_state [c] course_penalty).2.2, all_var_names [c]) := by
    simp only [build_qubo]
    rw [hscan]
  have hlin0 : (all_var_names [c]).foldl (fun d v => dsetdefault d v 0) ([] : LinMap)
      = (course_var_names c).map (fun v => (v, (0 : ℚ))) := by
    rw [hN1]
    simpa using foldl_dsetdefault_zero (course_var_names c) [] hnd (by simp [dkeys])
  have hph : phase2_state [c] course_penalty
      = add_course_terms course_penalty
          ((course_var_names c).map (fun v => (v, (0 : ℚ))), [], 0) c := by
    simp only [phase2_state, List.foldl_cons, List.foldl_nil, hlin0]
  have hact : add_course_terms course_penalty
      ((course_var_names c).map (fun v => (v, (0 : ℚ))), [], 0) c
      = ((course_var_names c).foldl (fun d v => dadd d v (-course_penalty))
          ((course_var_names c).map (fun v => (v, (0 : ℚ)))),
         (combinations2 (course_var_names c)).foldl
          (fun d pr => dadd d (sortPair pr.1 pr.2) (2 * course_penalty)) [],
         0 + course_penalty) := rfl
  have hkeys : dkeys ((course_var_names c).foldl (fun d v => dadd d v (-course_penalty))
      ((course_var_names c).map (fun v => (v, (0 : ℚ))))) = course_var_names c := by
    rw [dfst_foldl_dadd_mem (course_var_names c) (fun v => v) (-course_penalty)
      ((course_var_names c).map (fun v => (v, (0 : ℚ))))
      (fun v hv => by rw [dkeys_map_zero]; exact hv)]
    exact dkeys_map_zero (course_var_names c)
  have hQcomp : ∀ pr ∈ (combinations2 (course_var_names c)).foldl
      (fun d pr => dadd d (sortPair pr.1 pr.2) (2 * course_penalty)) ([] : QuadMap),
      pr.1.1 ∈ course_var_names c ∧ pr.1.2 ∈ course_var_names c := by
    intro pr hpr
    have hk' : pr.1 ∈ dkeys ((combinations2 (course_var_names c)).foldl
        (fun d pr => dadd d (sortPair pr.1 pr.2) (2 * course_penalty)) ([] : QuadMap)) :=
      List.mem_map.mpr ⟨pr, hpr, rfl⟩
    rcases mem_dkeys_foldl_dadd (combinations2 (course_var_names c))
        (fun pr => sortPair pr.1 pr.2) (2 * course_penalty) [] pr.1 hk' with h0 | ⟨x, hx, heq⟩
    · exact absurd h0 (by simp [dkeys])
    · obtain ⟨hx1, hx2⟩ := mem_combinations2 (course_var_names c) x hx
      rcases sortPair_comp_cases x.1 x.2 with ⟨e1, e2⟩ | ⟨e1, e2⟩ <;>
        rw [heq] <;> exact ⟨by rw [e1]; assumption, by rw [e2]; assumption⟩
  have hlenL : bits.length = ((course_var_names c).foldl
      (fun d v => dadd d v (-course_penalty))
      ((course_var_names c).map (fun v => (v, (0 : ℚ))))).length := by
    have hl : ((course_var_names c).foldl (fun d v => dadd d v (-course_penalty))
        ((course_var_names c).map (fun v => (v, (0 : ℚ))))).length
        = (course_var_names c).length := by
      rw [show ∀ (d : LinMap), d.length = (dkeys d).length from fun d => by simp [dkeys],
        hkeys]
    rw [hl]
    exact hlen
  have hE := evaluate_qubo_eq_msum
    ((course_var_names c).foldl (fun d v => dadd d v (-course_penalty))
      ((course_var_names c).map (fun v => (v, (0 : ℚ)))))
    ((combinations2 (course_var_names c)).foldl
      (fun d pr => dadd d (sortPair pr.1 pr.2) (2 * course_penalty)) [])
    (0 + course_penalty) bits (by rw [hkeys]; exact hnd) hlenL
    (by rw [hkeys]; exact hQcomp)
  rw [hkeys] at hE
  have hmL : msum ((course_var_names c).foldl (fun d v => dadd d v (-course_penalty))
      ((course_var_names c).map (fun v => (v, (0 : ℚ)))))
      (valueAt bits (course_var_names c))
      = -course_penalty * bits.sum := by
    rw [msum_foldl_dadd (course_var_names c) (fun v => v) (-course_penalty)
      ((course_var_names c).map (fun v => (v, (0 : ℚ))))
      (valueAt bits (course_var_names c)), msum_map_zero_keys,
      map_valueAt_positional bits (course_var_names c) hnd hlen]
    ring
  have hmQ : msum ((combinations2 (course_var_names c)).foldl
      (fun d pr => dadd d (sortPair pr.1 pr.2) (2 * course_penalty)) [])
      (fun k => valueAt bits (course_var_names c) k.1
        * valueAt bits (course_var_names c) k.2)
      = 2 * course_penalty * ((bits.sum ^ 2 - bits.sum) / 2) := by
    rw [msum_foldl_dadd (combinations2 (course_var_names c))
      (fun pr => sortPair pr.1 pr.2) (2 * course_penalty) []
      (fun k => valueAt bits (course_var_names c) k.1
        * valueAt bits (course_var_names c) k.2), msum_nil]
    have hcongr : (combinations2 (course_var_names c)).map
        (fun x => (fun k => valueAt bits (course_var_names c) k.1
          * valueAt bits (course_var_names c) k.2) (sortPair x.1 x.2))
        = (combinations2 (course_var_names c)).map
          (fun x => valueAt bits (course_var_names c) x.1
            * valueAt bits (course_var_names c) x.2) :=
      List.map_congr_left (fun pr _ => by simp only [sortPair_mul])
    rw [hcongr]
    have hmm : (combinations2 (course_var_names c)).map
        (fun x => valueAt bits (course_var_names c) x.1
          * valueAt bits (course_var_names c) x.2)
        = (combinations2 ((course_var_names c).map
            (valueAt bits (course_var_names c)))).map (fun p => p.1 * p.2) := by
      rw [combinations2_map, List.map_map]
      rfl
    rw [hmm, map_valueAt_positional bits (course_var_names c) hnd hlen,
      combinations2_prod_sum bits, sum_sq_eq_sum_of_01 bits hbits]
    ring
  have hEv : evaluate_qubo bits (phase2_state [c] course_penalty).1
      (phase2_state [c] course_penalty).2.1 (phase2_state [c] course_penalty).2.2
      (all_var_names [c])
      = some (course_penalty * (((bits.count 1 : ℕ) : ℚ) - 1) ^ 2) := by
    rw [hph, hact, hN1, hE, hmL, hmQ]
    rw [show (((bits.count 1 : ℕ) : ℚ)) = bits.sum from count_one_cast_eq_sum bits hbits]
    congr 1
    ring
  refine ⟨(phase2_state [c] course_penalty).1, (phase2_state [c] course_penalty).2.1,
    (phase2_state [c] course_penalty).2.2, all_var_names [c], hbuild, hEv, ?_, ?_⟩
  · intro hm
    rw [hEv, hm]
    norm_num
  · intro hm e he
    rw [hEv] at he
    have he' : e = course_penalty * (((bits.count 1 : ℕ) : ℚ) - 1) ^ 2 :=
      (Option.some.injEq _ _ ▸ he).symm
    have h1 : (1 : ℚ) ≤ (((bits.count 1 : ℕ) : ℚ) - 1) ^ 2 := by
      rcases Nat.eq_zero_or_pos (bits.count 1) with h0 | hpos
      · rw [h0]
        norm_num
      · have h2 : 2 ≤ bits.count 1 := by omega
        have h2' : (2 : ℚ) ≤ ((bits.count 1 : ℕ) : ℚ) := by exact_mod_cast h2
        nlinarith
    calc course_penalty = course_penalty * 1 := (mul_one course_penalty).symm
      _ ≤ course_penalty * (((bits.count 1 : ℕ) : ℚ) - 1) ^ 2 :=
          mul_le_mul_of_nonneg_left h1 (le_of_lt hp)
      _ = e := he'.symm

/-- Course with two non-overlapping timed sections (disjoint days), witnessing
C3 concretely. -/
def c3WitCourse : Course :=
  ⟨"K", [⟨"A", ["M"], "09:00", "10:00", true⟩, ⟨"B", ["T"], "09:00", "10:00", true⟩]⟩

/-- Witness for C3: on the two-section course `c3WitCourse` with penalties 5
and the bitstring `[1, 0]`, all hypotheses hold and the theorem applies. -/
theorem course_exactly_one_enforcement_witness :
    (∀ pr ∈ combinations2 (all_sections [c3WitCourse]),
        overlaps pr.1.2 pr.2.2 = some false)
      ∧ ∃ L Q o ivar, build_qubo [c3WitCourse] 5 5 = some (L, Q, o, ivar)
        ∧ evaluate_qubo [1, 0] L Q o ivar
            = some (5 * (((([(1 : ℚ), 0]).count 1 : ℕ) : ℚ) - 1) ^ 2)
        ∧ (([(1 : ℚ), 0]).count 1 = 1 → evaluate_qubo [1, 0] L Q o ivar = some 0)
        ∧ (([(1 : ℚ), 0]).count 1 ≠ 1 →
            ∀ e, evaluate_qubo [1, 0] L Q o ivar = some e → (5 : ℚ) ≤ e) := by
  have hno : ∀ pr ∈ combinations2 (all_sections [c3WitCourse]),
      overlaps pr.1.2 pr.2.2 = some false := by decide
  have hbits : ∀ b ∈ ([(1 : ℚ), 0]), b = 0 ∨ b = 1 := by
    intro b hb
    rcases List.mem_cons.mp hb with rfl | hb
    · exact Or.inr rfl
    · rcases List.mem_cons.mp hb with rfl | hb
      · exact Or.inl rfl
      · simp at hb
  exact ⟨hno, course_exactly_one_enforcement c3WitCourse 5 5 [1, 0] (by norm_num)
    (by decide) (by decide) hno (by decide) hbits⟩

/-! ## Claim C4: overlap predicate -/

/-- C4: for sections whose four time strings are well-formed (they parse to
minutes `sa`, `ea`, `sb`, `eb`), `overlaps` returns a boolean, and it is true
iff the sections share at least one meeting day and the half-open windows
`[sa, ea)` and `[sb, eb)` intersect, i.e. `¬ (ea ≤ sb ∨ eb ≤ sa)`. -/
theorem overlaps_spec (a b : Section) (sa ea sb eb : Int)
    (ha : time_to_minutes a.begin_ = some sa) (ha' : time_to_minutes a.end_ = some ea)
    (hb : time_to_minutes b.begin_ = some sb) (hb' : time_to_minutes b.end_ = some eb) :
    ∃ r, overlaps a b = some r
      ∧ (r = true ↔ ((∃ d ∈ a.days, d ∈ b.days) ∧ ¬ (ea ≤ sb ∨ eb ≤ sa))) := by
  have hshared : (a.days.filter (fun d => b.days.contains d)).isEmpty = true
      ↔ ¬ ∃ d ∈ a.days, d ∈ b.days := by
    rw [List.isEmpty_iff, List.filter_eq_nil_iff]
    simp
  by_cases hc : (a.days.filter (fun d => b.days.contains d)).isEmpty
  · refine ⟨false, ?_, ?_⟩
    · simp only [overlaps, hc, if_true]
    · simp only [Bool.false_eq_true, false_iff]
      intro ⟨hd, _⟩
      exact (hshared.mp hc) hd
  · have hd : ∃ d ∈ a.days, d ∈ b.days := by
      by_contra hno
      exact hc (hshared.mpr hno)
    obtain ⟨d, hd1, hd2⟩ := hd
    refine ⟨!(decide (ea ≤ sb) || decide (eb ≤ sa)), ?_, ?_⟩
    · simp [overlaps, hc, ha, ha', hb, hb']
      intro hall
      exact absurd hd2 (hall d hd1)
    · have hex : ∃ d ∈ a.days, d ∈ b.days := ⟨d, hd1, hd2⟩
      simp [hex, not_or]

/-- Two concrete sections sharing Wednesday with intersecting windows, used to
witness C4. -/
def c4SecA : Section := ⟨"S1", ["M", "W"], "09:00", "10:20", true⟩

/-- Second concrete section for the C4 witness. -/
def c4SecB : Section := ⟨"S2", ["W"], "10:00", "11:00", true⟩

/-- Witness for C4: the time strings of `c4SecA`/`c4SecB` parse, and the
theorem yields a boolean result equivalent to the day/interval condition. -/
theorem overlaps_spec_witness :
    time_to_minutes c4SecA.begin_ = some 540
      ∧ ∃ r, overlaps c4SecA c4SecB = some r
        ∧ (r = true ↔ ((∃ d ∈ c4SecA.days, d ∈ c4SecB.days)
            ∧ ¬ ((620 : Int) ≤ 600 ∨ (660 : Int) ≤ 540))) :=
  ⟨by decide, overlaps_spec c4SecA c4SecB 540 620 600 660
    (by decide) (by decide) (by decide) (by decide)⟩

/-! ## Claim C5: sections without meeting days in the conflict scan -/

theorem overlaps_dayless (s : Section) (hdays : s.days = []) :
    ∀ b : Section, overlaps s b = some false ∧ overlaps b s = some false := by
  intro b
  constructor
  · simp [overlaps, hdays]
  · simp [overlaps, hdays]

theorem map_fst_nodup_mem_unique {α : Type} (l : List (String × α))
    (hnd : (l.map Prod.fst).Nodup) (k : String) (x y : α)
    (hx : (k, x) ∈ l) (hy : (k, y) ∈ l) : x = y := by
  induction l with
  | nil => simp at hx
  | cons p rest ih =>
    rw [List.map_cons] at hnd
    obtain ⟨hhead, htail⟩ := List.nodup_cons.mp hnd
    rcases List.mem_cons.mp hx with hx1 | hx1 <;> rcases List.mem_cons.mp hy with hy1 | hy1
    · have h2 := hy1.trans hx1.symm
      rw [Prod.ext_iff] at h2
      exact h2.2.symm
    · exfalso
      apply hhead
      rw [← hx1]
      exact List.mem_map.mpr ⟨(k, y), hy1, rfl⟩
    · exfalso
      apply hhead
      rw [← hy1]
      exact List.mem_map.mpr ⟨(k, x), hx1, rfl⟩
    · exact ih htail hx1 hy1

theorem conflict_scan_dget_invariant (qpen : ℚ)
    (pairs : List ((String × Section) × (String × Section))) (Q0 Q : QuadMap)
    (k : String × String) (h : conflict_scan qpen pairs Q0 = some Q)
    (hk : ∀ pr ∈ pairs, sortPair pr.1.1 pr.2.1 = k → overlaps pr.1.2 pr.2.2 = some false) :
    dget Q k 0 = dget Q0 k 0 := by
  induction pairs generalizing Q0 with
  | nil =>
    obtain rfl : Q0 = Q := by simpa [conflict_scan] using h
    rfl
  | cons pr rest ih =>
    rw [conflict_scan] at h
    cases ho : overlaps pr.1.2 pr.2.2 with
    | none => rw [ho] at h; exact absurd h (by simp)
    | some ov =>
      rw [ho] at h
      by_cases hkey : sortPair pr.1.1 pr.2.1 = k
      · have hfalse := hk pr (List.mem_cons_self pr rest) hkey
        rw [ho] at hfalse
        obtain rfl : ov = false := by simpa using hfalse
        exact ih Q0 (by simpa using h)
          (fun pr' hpr' => hk pr' (List.mem_cons_of_mem pr hpr'))
      · cases ov with
        | false =>
          exact ih Q0 (by simpa using h)
            (fun pr' hpr' => hk pr' (List.mem_cons_of_mem pr hpr'))
        | true =>
          rw [ih (dadd Q0 (sortPair pr.1.1 pr.2.1) qpen) (by simpa using h)
            (fun pr' hpr' => hk pr' (List.mem_cons_of_mem pr hpr'))]
          exact dget_dadd_ne Q0 (sortPair pr.1.1 pr.2.1) k qpen 0
            (fun hh => hkey hh.symm)

/-- C5 (amended): a section with no meeting days never overlaps any other
section in either argument order, and — although `build_qubo`'s conflict scan
iterates over all sections, `requires_time_slot` included — no
`conflict_penalty` contribution is ever added at a quadratic key involving
that section's variable: the final quadratic coefficients at such keys equal
the course-selection coefficients. -/
theorem dayless_section_conflict_free (courses : List Course) (cp cq : ℚ)
    (L : LinMap) (Q : QuadMap) (o : ℚ) (ivar : List String)
    (hbuild : build_qubo courses cp cq = some (L, Q, o, ivar))
    (hnd : ivar.Nodup) (v : String) (s : Section)
    (hmem : (v, s) ∈ all_sections courses) (hdays : s.days = []) :
    (∀ b : Section, overlaps s b = some false ∧ overlaps b s = some false)
      ∧ ∀ k : String × String, k.1 = v ∨ k.2 = v →
          dget Q k 0 = dget (phase2_state courses cp).2.1 k 0 := by
  obtain ⟨hi, -, -, hscan⟩ := build_qubo_some_parts courses cp cq L Q o ivar hbuild
  subst hi
  have hfstnd : ((all_sections courses).map Prod.fst).Nodup := by
    rw [all_sections_fst]
    exact hnd
  refine ⟨overlaps_dayless s hdays, ?_⟩
  intro k hkv
  apply conflict_scan_dget_invariant cq (combinations2 (all_sections courses))
    (phase2_state courses cp).2.1 Q k hscan
  intro pr hpr hkey
  obtain ⟨hp1, hp2⟩ := mem_combinations2 (all_sections courses) pr hpr
  have hvcomp : pr.1.1 = v ∨ pr.2.1 = v := by
    rcases sortPair_comp_cases pr.1.1 pr.2.1 with ⟨e1, e2⟩ | ⟨e1, e2⟩ <;>
      rcases hkv with hkv | hkv
    · rw [← hkey, e1] at hkv
      exact Or.inl hkv
    · rw [← hkey, e2] at hkv
      exact Or.inr hkv
    · rw [← hkey, e1] at hkv
      exact Or.inr hkv
    · rw [← hkey, e2] at hkv
      exact Or.inl hkv
  rcases hvcomp with hv1 | hv1
  · have hsec : pr.1.2 = s := by
      apply map_fst_nodup_mem_unique (all_sections courses) hfstnd v
      · rw [← hv1]
        exact (by simpa using hp1)
      · exact hmem
    rw [hsec]
    exact (overlaps_dayless s hdays pr.2.2).1
  · have hsec : pr.2.2 = s := by
      apply map_fst_nodup_mem_unique (all_sections courses) hfstnd v
      · rw [← hv1]
        exact (by simpa using hp2)
      · exact hmem
    rw [hsec]
    exact (overlaps_dayless s hdays pr.1.2).2

/-- Timed section whose `requires_time_slot` flag is false, for the C5
counterexample. -/
def c5SecA : Section := ⟨"A", ["M"], "09:00", "10:00", false⟩

/-- Second timed flag-false section overlapping `c5SecA`. -/
def c5SecB : Section := ⟨"B", ["M"], "09:30", "10:30", false⟩

/-- Two-course input for the C5 counterexample. -/
def c5CexCourses : List Course := [⟨"X", [c5SecA]⟩, ⟨"Y", [c5SecB]⟩]

/-- C5 counterexample: both sections have `requires_time_slot = false`, yet
`build_qubo` adds a `conflict_penalty` quadratic term of `5` at the key pair
of their variables — the flag is never consulted and the sections are not
excluded from the conflict scan. -/
theorem dayless_section_conflict_free_cex :
    c5SecA.requires_time_slot = false
      ∧ ((build_qubo c5CexCourses 5 5).map fun r => dget r.2.1 ("X|A|0", "Y|B|0") 0)
          = some 5 := by
  refine ⟨rfl, ?_⟩
  have hov : overlaps (⟨"A", ["M"], "09:00", "10:00", false⟩ : Section)
      ⟨"B", ["M"], "09:30", "10:30", false⟩ = some true := by decide
  have hva : var_name "X" "A" 0 = "X|A|0" := by decide
  have hvb : var_name "Y" "B" 0 = "Y|B|0" := by decide
  have hlt : ¬ ("Y|B|0" < "X|A|0") := by rw [String.lt_iff_toList_lt]; decide
  norm_num [c5CexCourses, c5SecA, c5SecB, build_qubo, phase2_state, all_var_names,
    course_var_names, sections_with_names, hva, hvb, add_course_terms, combinations2,
    dadd, dsetdefault, List.foldl, List.flatMap, all_sections, conflict_scan, hov,
    sortPair, hlt, dget]

/-- Day-less flag-false section for the C5 witness. -/
def c5WitSec : Section := ⟨"A", [], "", "", false⟩

/-- Timed companion section for the C5 witness. -/
def c5WitSecB : Section := ⟨"B", ["M"], "09:00", "10:00", true⟩

/-- Two-course input for the C5 witness. -/
def c5WitCourses : List Course := [⟨"X", [c5WitSec]⟩, ⟨"Y", [c5WitSecB]⟩]

/-- Linear map produced by `build_qubo c5WitCourses 5 5`. -/
def c5WitL : LinMap := [("X|A|0", -5), ("Y|B|0", -5)]

/-- Index list produced by `build_qubo c5WitCourses 5 5`. -/
def c5WitIvar : List String := ["X|A|0", "Y|B|0"]

/-- Witness for the amended C5 on a concrete two-course input with one
day-less section. -/
theorem dayless_section_conflict_free_witness :
    build_qubo c5WitCourses 5 5 = some (c5WitL, [], 10, c5WitIvar)
      ∧ c5WitIvar.Nodup
      ∧ ("X|A|0", c5WitSec) ∈ all_sections c5WitCourses
      ∧ c5WitSec.days = []
      ∧ ((∀ b : Section, overlaps c5WitSec b = some false
            ∧ overlaps b c5WitSec = some false)
          ∧ ∀ k : String × String, k.1 = "X|A|0" ∨ k.2 = "X|A|0" →
              dget ([] : QuadMap) k 0 = dget (phase2_state c5WitCourses 5).2.1 k 0) := by
  have hva : var_name "X" "A" 0 = "X|A|0" := by decide
  have hvb : var_name "Y" "B" 0 = "Y|B|0" := by decide
  have hne : ¬ ("X|A|0" = "Y|B|0") := by decide
  have hb : build_qubo c5WitCourses 5 5 = some (c5WitL, [], 10, c5WitIvar) := by
    norm_num [c5WitCourses, c5WitSec, c5WitSecB, build_qubo, phase2_state, all_var_names, hne,
      course_var_names, sections_with_names, hva, hvb, add_course_terms, combinations2,
      dadd, dsetdefault, List.foldl, List.flatMap, all_sections, conflict_scan, overlaps,
      time_to_minutes, c5WitL, c5WitIvar]
  have hn : c5WitIvar.Nodup := by decide
  have hm : ("X|A|0", c5WitSec) ∈ all_sections c5WitCourses := by decide
  have hd : c5WitSec.days = [] := rfl
  exact ⟨hb, hn, hm, hd,
    dayless_section_conflict_free c5WitCourses 5 5 c5WitL [] 10 c5WitIvar hb hn
      "X|A|0" c5WitSec hm hd⟩

/-! ## Claim C6: canonical-pair invariant -/

theorem fold_courses_quad_sorted (p : ℚ) (cs : List Course) :
    ∀ (st : LinMap × QuadMap × ℚ), (∀ k ∈ dkeys st.2.1, k.1 ≤ k.2) →
    ∀ k ∈ dkeys (cs.foldl (fun st c => add_course_terms p st c) st).2.1, k.1 ≤ k.2 := by
  induction cs with
  | nil => exact fun st h => h
  | cons c cs ih =>
    intro st h
    rw [List.foldl_cons]
    apply ih
    intro k hk
    rcases mem_dkeys_foldl_dadd (combinations2 (course_var_names c))
        (fun pr => sortPair pr.1 pr.2) (2 * p) st.2.1 k hk with hk' | ⟨x, _, rfl⟩
    · exact h k hk'
    · exact sortPair_le x.1 x.2

theorem build_qubo_quad_sorted (cs : List Course) (p q : ℚ) (L : LinMap) (Q : QuadMap)
    (o : ℚ) (ivar : List String) (h : build_qubo cs p q = some (L, Q, o, ivar)) :
    ∀ k ∈ dkeys Q, k.1 ≤ k.2 := by
  obtain ⟨-, -, -, hscan⟩ := build_qubo_some_parts cs p q L Q o ivar h
  intro k hk
  rcases conflict_scan_keys q _ _ Q hscan k hk with hk' | ⟨pr, -, rfl⟩
  · have hph : ∀ k ∈ dkeys (phase2_state cs p).2.1, k.1 ≤ k.2 := by
      simp only [phase2_state]
      apply fold_courses_quad_sorted
      simp [dkeys]
    exact hph k hk'
  · exact sortPair_le pr.1.1 pr.2.1

theorem ising_J_keys (Q : QuadMap) (acc : ℚ) (h : LinMap) (J : QuadMap) :
    ∀ k ∈ dkeys (Q.foldl (fun (st : ℚ × LinMap × QuadMap) p =>
        (st.1 + p.2 / 4,
         dadd (dadd st.2.1 p.1.1 (-p.2 / 4)) p.1.2 (-p.2 / 4),
         dadd st.2.2 (sortPair p.1.1 p.1.2) (p.2 / 4))) (acc, h, J)).2.2,
      k ∈ dkeys J ∨ ∃ p ∈ Q, k = sortPair p.1.1 p.1.2 := by
  induction Q generalizing acc h J with
  | nil => exact fun k hk => Or.inl hk
  | cons p rest ih =>
    intro k hk
    rw [List.foldl_cons] at hk
    rcases ih (acc + p.2 / 4) (dadd (dadd h p.1.1 (-p.2 / 4)) p.1.2 (-p.2 / 4))
        (dadd J (sortPair p.1.1 p.1.2) (p.2 / 4)) k hk with hk' | ⟨x, hx, rfl⟩
    · rcases mem_dkeys_dadd J (sortPair p.1.1 p.1.2) k (p.2 / 4) hk' with hk'' | hk''
      · exact Or.inl hk''
      · exact Or.inr ⟨p, List.mem_cons_self p rest, hk''⟩
    · exact Or.inr ⟨x, List.mem_cons_of_mem p hx, rfl⟩

theorem ising_J_sorted (linear : LinMap) (quadratic : QuadMap) (offset : ℚ) :
    ∀ k ∈ dkeys (qubo_to_ising linear quadratic offset).2.1, k.1 ≤ k.2 := by
  simp only [qubo_to_ising]
  intro k hk
  rcases ising_J_keys quadratic _ _ [] k hk with hk' | ⟨p, -, rfl⟩
  · exact absurd hk' (by simp [dkeys])
  · exact sortPair_le p.1.1 p.1.2

/-- C6: the quadratic map of every successful `build_qubo` run and the `J`
coupling map of every `qubo_to_ising` run store every pair key in
non-decreasing order, hence never contain both `(a, b)` and `(b, a)` as
distinct keys; and repeated contributions to the same pair accumulate by
summation in `dadd`. -/
theorem canonical_pair_invariant (courses : List Course) (cp cq : ℚ)
    (L : LinMap) (Q : QuadMap) (o : ℚ) (ivar : List String)
    (hbuild : build_qubo courses cp cq = some (L, Q, o, ivar))
    (linear : LinMap) (quadratic : QuadMap) (offset : ℚ) :
    (∀ k ∈ dkeys Q, k.1 ≤ k.2)
      ∧ (∀ k ∈ dkeys (qubo_to_ising linear quadratic offset).2.1, k.1 ≤ k.2)
      ∧ (∀ a b : String, a ≠ b → ¬ ((a, b) ∈ dkeys Q ∧ (b, a) ∈ dkeys Q))
      ∧ (∀ a b : String, a ≠ b →
          ¬ ((a, b) ∈ dkeys (qubo_to_ising linear quadratic offset).2.1
            ∧ (b, a) ∈ dkeys (qubo_to_ising linear quadratic offset).2.1))
      ∧ (∀ (d : QuadMap) (k : String × String) (v : ℚ),
          dget (dadd d k v) k 0 = dget d k 0 + v) := by
  have hQ := build_qubo_quad_sorted courses cp cq L Q o ivar hbuild
  have hJ := ising_J_sorted linear quadratic offset
  refine ⟨hQ, hJ, ?_, ?_, fun d k v => dget_dadd_self d k v⟩
  · intro a b hab ⟨h1, h2⟩
    exact hab (le_antisymm (hQ (a, b) h1) (hQ (b, a) h2))
  · intro a b hab ⟨h1, h2⟩
    exact hab (le_antisymm (hJ (a, b) h1) (hJ (b, a) h2))

/-- One-course input for the C6 witness. -/
def c6Courses : List Course :=
  [⟨"M", [⟨"A", [], "", "", true⟩, ⟨"B", [], "", "", true⟩]⟩]

/-- Quadratic map produced by `build_qubo c6Courses 5 5`. -/
def c6Q : QuadMap := [(("M|A|0", "M|B|1"), 10)]

/-- Witness for C6: `build_qubo` succeeds on `c6Courses` and the invariant
conclusions hold for its quadratic map and for `qubo_to_ising` on it. -/
theorem canonical_pair_invariant_witness :
    build_qubo c6Courses 5 5 = some ([("M|A|0", -5), ("M|B|1", -5)], c6Q, 5,
        ["M|A|0", "M|B|1"])
      ∧ ((∀ k ∈ dkeys c6Q, k.1 ≤ k.2)
        ∧ (∀ k ∈ dkeys (qubo_to_ising [("M|A|0", -5), ("M|B|1", -5)] c6Q 5).2.1,
            k.1 ≤ k.2)
        ∧ (∀ a b : String, a ≠ b → ¬ ((a, b) ∈ dkeys c6Q ∧ (b, a) ∈ dkeys c6Q))
        ∧ (∀ a b : String, a ≠ b →
            ¬ ((a, b) ∈ dkeys (qubo_to_ising [("M|A|0", -5), ("M|B|1", -5)] c6Q 5).2.1
              ∧ (b, a) ∈ dkeys (qubo_to_ising [("M|A|0", -5), ("M|B|1", -5)] c6Q 5).2.1))
        ∧ (∀ (d : QuadMap) (k : String × String) (v : ℚ),
            dget (dadd d k v) k 0 = dget d k 0 + v)) := by
  have hva : var_name "M" "A" 0 = "M|A|0" := by decide
  have hvb : var_name "M" "B" 1 = "M|B|1" := by decide
  have hlt : ¬ ("M|B|1" < "M|A|0") := by rw [String.lt_iff_toList_lt]; decide
  have hne : ¬ ("M|A|0" = "M|B|1") := by decide
  have hb : build_qubo c6Courses 5 5
      = some ([("M|A|0", -5), ("M|B|1", -5)], c6Q, 5, ["M|A|0", "M|B|1"]) := by
    norm_num [c6Courses, build_qubo, phase2_state, all_var_names, course_var_names,
      sections_with_names, hva, hvb, add_course_terms, combinations2, dadd, dsetdefault,
      List.foldl, List.flatMap, all_sections, conflict_scan, overlaps, sortPair, hlt,
      hne, c6Q]
  exact ⟨hb, canonical_pair_invariant c6Courses 5 5 [("M|A|0", -5), ("M|B|1", -5)] c6Q 5
    ["M|A|0", "M|B|1"] hb [("M|A|0", -5), ("M|B|1", -5)] c6Q 5⟩

/-! ## Claim C7: duration rounding -/

/-- C7: for a begin/end pair that both parse (to `t1` and `t2` minutes) with a
span of at least one minute, `calculate_duration_slots` returns
`⌈(t2 - t1) / 60⌉`; in particular spans of 1–60 minutes give 1 slot and spans
of 61–120 minutes give 2 slots. -/
theorem calculate_duration_slots_spec (bs es : String) (t1 t2 : Nat)
    (hb : parse_time_ampm bs = some t1) (he : parse_time_ampm es = some t2)
    (hm : 1 ≤ (t2 : Int) - (t1 : Int)) :
    calculate_duration_slots (some bs) (some es)
        = Int.ceil (((t2 : ℚ) - (t1 : ℚ)) / 60)
      ∧ ((t2 : Int) - t1 ≤ 60 → calculate_duration_slots (some bs) (some es) = 1)
      ∧ (61 ≤ (t2 : Int) - t1 → (t2 : Int) - t1 ≤ 120 →
          calculate_duration_slots (some bs) (some es) = 2) := by
  have htba : bs ≠ "TBA" := by
    intro h
    rw [h, show parse_time_ampm "TBA" = none from by decide] at hb
    exact Option.noConfusion hb
  have hq : (1 : ℚ) ≤ (t2 : ℚ) - (t1 : ℚ) := by exact_mod_cast hm
  have hceil_pos : (1 : Int) ≤ Int.ceil (((t2 : ℚ) - (t1 : ℚ)) / 60) := by
    have h0 : (0 : ℚ) < ((t2 : ℚ) - (t1 : ℚ)) / 60 := by linarith
    have := Int.lt_ceil.mpr (by exact_mod_cast h0 :
      ((0 : ℤ) : ℚ) < ((t2 : ℚ) - (t1 : ℚ)) / 60)
    omega
  have hmain : calculate_duration_slots (some bs) (some es)
      = Int.ceil (((t2 : ℚ) - (t1 : ℚ)) / 60) := by
    simp only [calculate_duration_slots, htba, if_neg, hb, he, if_false]
    exact max_eq_right hceil_pos
  refine ⟨hmain, ?_, ?_⟩
  · intro h60
    rw [hmain, Int.ceil_eq_iff]
    have h60' : (t2 : ℚ) - (t1 : ℚ) ≤ 60 := by exact_mod_cast h60
    constructor
    · push_cast
      linarith
    · push_cast
      linarith
  · intro h61 h120
    rw [hmain, Int.ceil_eq_iff]
    have h61' : (61 : ℚ) ≤ (t2 : ℚ) - (t1 : ℚ) := by exact_mod_cast h61
    have h120' : (t2 : ℚ) - (t1 : ℚ) ≤ 120 := by exact_mod_cast h120
    constructor
    · push_cast
      linarith
    · push_cast
      linarith

/-- Witness for C7: `08:00AM` to `09:20AM` spans 80 minutes and the theorem
yields 2 slots for it. -/
theorem calculate_duration_slots_spec_witness :
    parse_time_ampm "08:00AM" = some 480
      ∧ parse_time_ampm "09:20AM" = some 560
      ∧ (1 : Int) ≤ (560 : Int) - 480
      ∧ (61 ≤ (560 : Int) - 480 → (560 : Int) - 480 ≤ 120 →
          calculate_duration_slots (some "08:00AM") (some "09:20AM") = 2) :=
  ⟨by decide, by decide, by decide,
    (calculate_duration_slots_spec "08:00AM" "09:20AM" 480 560 (by decide) (by decide)
      (by decide)).2.2⟩

/-! ## Claim C9: behaviour on unparseable times -/

/-- C9 counterexample: an unparseable begin time does not abort anything —
`calculate_duration_slots` just returns the default of one slot. -/
theorem calculate_duration_slots_default_cex :
    parse_time_ampm "garbage" = none
      ∧ calculate_duration_slots (some "garbage") (some "09:00AM") = 1 := by
  exact ⟨by decide, by decide⟩

/-- C9 (amended): missing (`NaN`) cells, a `TBA` begin cell, and unparseable
begin or end strings all make `calculate_duration_slots` silently return the
default duration of one slot; no error is surfaced and the formulation
continues with that default. -/
theorem calculate_duration_slots_default (bs es : String) :
    (∀ e, calculate_duration_slots none e = 1)
      ∧ (∀ b, calculate_duration_slots b none = 1)
      ∧ (∀ e, calculate_duration_slots (some "TBA") (some e) = 1)
      ∧ (parse_time_ampm bs = none → calculate_duration_slots (some bs) (some es) = 1)
      ∧ (parse_time_ampm es = none → calculate_duration_slots (some bs) (some es) = 1) := by
  refine ⟨?_, ?_, ?_, ?_, ?_⟩
  · intro e
    cases e <;> rfl
  · intro b
    cases b <;> rfl
  · intro e
    simp [calculate_duration_slots]
  · intro hp
    by_cases htba : bs = "TBA"
    · simp [calculate_duration_slots, htba]
    · simp [calculate_duration_slots, htba, hp]
  · intro hp
    by_cases htba : bs = "TBA"
    · simp [calculate_duration_slots, htba]
    · cases hbs : parse_time_ampm bs <;>
        simp [calculate_duration_slots, htba, hbs, hp]

/-- Witness for the amended C9: the unparseable string `garbage` takes the
parse-failure branch and yields the default of one slot. -/
theorem calculate_duration_slots_default_witness :
    parse_time_ampm "garbage" = none
      ∧ calculate_duration_slots (some "garbage") (some "09:00AM") = 1 :=
  ⟨by decide,
    (calculate_duration_slots_default "garbage" "09:00AM").2.2.2.1 (by decide)⟩

/-! ## Claim C8: capacity pre-filter in ILP variable generation -/

/-- C8: in both ILP builders, no binary decision variable key
`(meeting, start_slot, room)` is ever created when the room's capacity is
strictly below the meeting's enrollment — such rooms are skipped before any
start-slot loop runs. -/
theorem capacity_prefilter (meetings rooms timeslots : List String)
    (meeting_enrollment room_capacity meeting_duration : String → Int) :
    (∀ k ∈ gen_vars meetings rooms timeslots meeting_enrollment room_capacity
        meeting_duration, meeting_enrollment k.1 ≤ room_capacity k.2.2)
      ∧ (∀ k ∈ gen_vars_mini meetings rooms timeslots meeting_enrollment room_capacity
        meeting_duration, meeting_enrollment k.1 ≤ room_capacity k.2.2) := by
  constructor <;>
  · intro k hk
    simp only [gen_vars, gen_vars_mini, List.mem_flatMap] at hk
    obtain ⟨meeting, -, room, -, hk⟩ := hk
    by_cases hcap : room_capacity room < meeting_enrollment meeting
    · rw [if_pos hcap] at hk
      simp at hk
    · rw [if_neg hcap] at hk
      simp only [List.mem_flatMap, List.mem_filterMap, Option.map_eq_some'] at hk
      obtain ⟨-, -, -, -, t, -, hkeq⟩ := hk
      rw [← hkeq]
      exact le_of_not_lt hcap

/-- Witness for C8: a one-meeting, one-room instance where the room fits; the
generated key is exactly the admissible one and the theorem applies to it. -/
theorem capacity_prefilter_witness :
    ("M1", "Mon_08:00", "R1") ∈ gen_vars ["M1"] ["R1"] ["Mon_08:00"]
        (fun _ => 10) (fun _ => 30) (fun _ => 1)
      ∧ (10 : Int) ≤ 30 :=
  ⟨by decide,
    (capacity_prefilter ["M1"] ["R1"] ["Mon_08:00"] (fun _ => 10) (fun _ => 30)
      (fun _ => 1)).1 ("M1", "Mon_08:00", "R1") (by decide)⟩

/-! ## Claim C10: decoding a bitstring into a selection -/

theorem dlookup_dset_self (d : List (String × String)) (k v : String) :
    dlookup (dset d k v) k = some v := by
  induction d with
  | nil => simp [dset, dlookup]
  | cons p rest ih =>
    by_cases h : p.1 = k
    · simp [dset, dlookup, h]
    · simp [dset, dlookup, h, ih]

theorem dlookup_dset_ne (d : List (String × String)) (k k' v : String) (h : k' ≠ k) :
    dlookup (dset d k v) k' = dlookup d k' := by
  have hkk : ¬ (k = k') := fun hh => h hh.symm
  induction d with
  | nil => simp [dset, dlookup, hkk]
  | cons p rest ih =>
    by_cases hp : p.1 = k
    · have hne : ¬ (p.1 = k') := by rw [hp]; exact hkk
      simp [dset, dlookup, hp, hne, hkk]
    · by_cases hp' : p.1 = k'
      · simp [dset, dlookup, hp, hp', h]
      · simp [dset, dlookup, hp, hp', ih]

theorem selected_pairs_nil (vars : List String) : selected_pairs [] vars = [] := rfl

theorem selected_pairs_cons_one (bs : List ℚ) (v : String) (vs : List String)
    (c s r : List Char) (hsplit : splitOnChar '|' v.data = [c, s, r]) :
    selected_pairs (1 :: bs) (v :: vs)
      = (String.mk c, String.mk s) :: selected_pairs bs vs := by
  simp [selected_pairs, List.zip_cons_cons, List.filterMap_cons, hsplit]

theorem selected_pairs_cons_zero (bs : List ℚ) (v : String) (vs : List String) :
    selected_pairs (0 :: bs) (v :: vs) = selected_pairs bs vs := by
  simp only [selected_pairs, List.zip_cons_cons, List.filterMap_cons]
  cases hsplit : splitOnChar '|' v.data with
  | nil => rfl
  | cons c rest =>
    cases rest with
    | nil => rfl
    | cons s rest2 =>
      cases rest2 with
      | nil => rfl
      | cons r rest3 =>
        cases rest3 with
        | nil => norm_num
        | cons _ _ => rfl

theorem interp_loop_lookup (bits : List ℚ) (vars : List String)
    (acc : List (String × String)) (m : List (String × String))
    (hbits : ∀ b ∈ bits, b = 0 ∨ b = 1)
    (hsplit : ∀ v ∈ vars, ∃ c s r, splitOnChar '|' v.data = [c, s, r])
    (h : interp_loop acc bits vars = some m) :
    ∀ course, dlookup m course
      = match ((selected_pairs bits vars).filter (fun pr => pr.1 = course)).getLast? with
        | some pr => some pr.2
        | none => dlookup acc course := by
  induction bits generalizing vars acc with
  | nil =>
    obtain rfl : acc = m := by simpa [interp_loop] using h
    intro course
    simp [selected_pairs_nil]
  | cons b bs ih =>
    cases vars with
    | nil => simp [interp_loop] at h
    | cons v vs =>
      obtain ⟨c, s, r, hsv⟩ := hsplit v (List.mem_cons_self v vs)
      have hbtail : ∀ b' ∈ bs, b' = 0 ∨ b' = 1 :=
        fun b' hb' => hbits b' (List.mem_cons_of_mem b hb')
      have hstail : ∀ v' ∈ vs, ∃ c s r, splitOnChar '|' v'.data = [c, s, r] :=
        fun v' hv' => hsplit v' (List.mem_cons_of_mem v hv')
      rcases hbits b (List.mem_cons_self b bs) with rfl | rfl
      · rw [interp_loop] at h
        simp only [ne_eq, not_true_eq_false, if_false] at h
        intro course
        rw [selected_pairs_cons_zero]
        exact ih vs acc hbtail hstail h course
      · rw [interp_loop] at h
        simp only [ne_eq, one_ne_zero, not_false_eq_true, if_true, hsv] at h
        intro course
        have ihc := ih vs (dset acc (String.mk c) (String.mk s)) hbtail hstail h course
        rw [selected_pairs_cons_one bs v vs c s r hsv]
        by_cases hcourse : String.mk c = course
        · rw [List.filter_cons_of_pos (by simpa using hcourse)]
          cases hfr : ((selected_pairs bs vs).filter (fun pr => pr.1 = course)).getLast? with
          | some pr =>
            rw [ihc, hfr]
            cases hfl : (selected_pairs bs vs).filter (fun pr => pr.1 = course) with
            | nil => rw [hfl] at hfr; simp at hfr
            | cons q qs => rw [hfl] at hfr; rw [List.getLast?_cons_cons, hfr]
          | none =>
            have hnil : (selected_pairs bs vs).filter (fun pr => pr.1 = course) = [] :=
              List.getLast?_eq_none_iff.mp hfr
            rw [ihc, hfr, hnil]
            rw [← hcourse]
            exact dlookup_dset_self acc (String.mk c) (String.mk s)
        · rw [List.filter_cons_of_neg (by simpa using hcourse)]
          rw [ihc]
          cases hfr : ((selected_pairs bs vs).filter (fun pr => pr.1 = course)).getLast? with
          | some pr => rfl
          | none =>
            exact dlookup_dset_ne acc (String.mk c) course (String.mk s)
              (fun hh => hcourse hh.symm)

theorem interp_loop_some (bits : List ℚ) (vars : List String)
    (acc : List (String × String))
    (hsplit : ∀ v ∈ vars, ∃ c s r, splitOnChar '|' v.data = [c, s, r])
    (hlen : bits.length ≤ vars.length) :
    ∃ m, interp_loop acc bits vars = some m := by
  induction bits generalizing vars acc with
  | nil => exact ⟨acc, rfl⟩
  | cons b bs ih =>
    cases vars with
    | nil => simp at hlen
    | cons v vs =>
      obtain ⟨c, s, r, hsv⟩ := hsplit v (List.mem_cons_self v vs)
      have hstail : ∀ v' ∈ vs, ∃ c s r, splitOnChar '|' v'.data = [c, s, r] :=
        fun v' hv' => hsplit v' (List.mem_cons_of_mem v hv')
      have hlen' : bs.length ≤ vs.length := by simpa using hlen
      rw [interp_loop]
      by_cases hb : b ≠ 0
      · rw [if_pos hb, hsv]
        exact ih vs (dset acc (String.mk c) (String.mk s)) hstail hlen'
      · rw [if_neg hb]
        exact ih vs acc hstail hlen'

/-- C10: for a 0/1 bit vector as long as the variable list, with every
variable name splitting on `|` into exactly three components,
`interpret_selection` returns a dictionary whose entry for each course code
is the section component of that course's selected variable with the largest
dense index (later selected indices overwrite earlier ones), and whose keys
are exactly the course codes with at least one bit-1 variable. -/
theorem interpret_selection_spec (bits : List ℚ) (ivar : List String)
    (hbits : ∀ b ∈ bits, b = 0 ∨ b = 1)
    (hsplit : ∀ v ∈ ivar, ∃ c s r, splitOnChar '|' v.data = [c, s, r])
    (hlen : bits.length = ivar.length) :
    ∃ m, interpret_selection bits ivar = some m
      ∧ (∀ course, dlookup m course
          = match ((selected_pairs bits ivar).filter
              (fun pr => pr.1 = course)).getLast? with
            | some pr => some pr.2
            | none => none)
      ∧ (∀ course, (dlookup m course).isSome
          ↔ course ∈ (selected_pairs bits ivar).map Prod.fst) := by
  obtain ⟨m, hm⟩ := interp_loop_some bits ivar [] hsplit (le_of_eq hlen)
  have hlook := interp_loop_lookup bits ivar [] m hbits hsplit hm
  have h2 : ∀ course, dlookup m course
      = match ((selected_pairs bits ivar).filter
          (fun pr => pr.1 = course)).getLast? with
        | some pr => some pr.2
        | none => none := by
    intro course
    rw [hlook course]
    cases ((selected_pairs bits ivar).filter (fun pr => pr.1 = course)).getLast? <;> rfl
  refine ⟨m, hm, h2, ?_⟩
  intro course
  rw [h2 course]
  cases hfr : ((selected_pairs bits ivar).filter (fun pr => pr.1 = course)).getLast? with
  | some pr =>
    simp only [Option.isSome_some, true_iff]
    have hprmem := List.mem_of_mem_getLast? hfr
    obtain ⟨hpr1, hpr2⟩ := List.mem_filter.mp hprmem
    exact List.mem_map.mpr ⟨pr, hpr1, by simpa using hpr2⟩
  | none =>
    have hnil := List.getLast?_eq_none_iff.mp hfr
    simp only [Option.isSome_none, Bool.false_eq_true, false_iff]
    intro hmem
    obtain ⟨pr, hpr, hpr1⟩ := List.mem_map.mp hmem
    have : pr ∈ (selected_pairs bits ivar).filter (fun pr => pr.1 = course) :=
      List.mem_filter.mpr ⟨hpr, by simpa using hpr1⟩
    rw [hnil] at this
    simp at this

/-- Witness for C10 on a concrete three-variable instance: indices 0 and 2
select `X` twice, the later index wins. -/
theorem interpret_selection_spec_witness :
    ([(1 : ℚ), 0, 1]).length = (["X|S1|0", "X|S2|1", "Y|S3|0"] : List String).length
      ∧ ∃ m, interpret_selection [1, 0, 1] ["X|S1|0", "X|S2|1", "Y|S3|0"] = some m
        ∧ (∀ course, dlookup m course
            = match ((selected_pairs [1, 0, 1] ["X|S1|0", "X|S2|1", "Y|S3|0"]).filter
                (fun pr => pr.1 = course)).getLast? with
              | some pr => some pr.2
              | none => none)
        ∧ (∀ course, (dlookup m course).isSome
            ↔ course ∈ (selected_pairs [1, 0, 1]
                ["X|S1|0", "X|S2|1", "Y|S3|0"]).map Prod.fst) := by
  have hbits : ∀ b ∈ ([(1 : ℚ), 0, 1]), b = 0 ∨ b = 1 := by
    intro b hb
    rcases List.mem_cons.mp hb with rfl | hb
    · exact Or.inr rfl
    · rcases List.mem_cons.mp hb with rfl | hb
      · exact Or.inl rfl
      · rcases List.mem_cons.mp hb with rfl | hb
        · exact Or.inr rfl
        · simp at hb
  have hsplit : ∀ v ∈ (["X|S1|0", "X|S2|1", "Y|S3|0"] : List String),
      ∃ c s r, splitOnChar '|' v.data = [c, s, r] := by
    intro v hv
    rcases List.mem_cons.mp hv with rfl | hv
    · exact ⟨"X".data, "S1".data, "0".data, by decide⟩
    · rcases List.mem_cons.mp hv with rfl | hv
      · exact ⟨"X".data, "S2".data, "1".data, by decide⟩
      · rcases List.mem_cons.mp hv with rfl | hv
        · exact ⟨"Y".data, "S3".data, "0".data, by decide⟩
        · simp at hv
  exact ⟨rfl, interpret_selection_spec [1, 0, 1] ["X|S1|0", "X|S2|1", "Y|S3|0"]
    hbits hsplit rfl⟩
